import Mathlib

/-!
# Sudoku solver (`sudoku.c`): shallow embedding and verification

The C program keeps a 9×9 matrix of `cell`s, each holding a `short val`
(0 = unassigned) and an array `possible[10]` of candidate flags.  The
embedding below follows the source function by function:

* `insertValue`        – the commit rule (lines 147-168),
* `countPossibilities` – the candidate counter (lines 181-185),
* `scanCells` / `propagate` – the `while(moveDone)` loop of `solveSudoku`
  (lines 192-223),
* `branch` / `solveSudoku`  – the terminal check and the trial loop
  (lines 225-250),
* `isSudokuComplete`   – the terminal validity check (lines 253-284).

Array accesses that the C code performs outside the bounds of an array are
reported as the outcome `outOfBounds`; recursion is bounded by a fuel
argument and running out of it is the outcome `outOfFuel`.
-/

namespace Sudoku

/-! ## Data model -/

/-- The C `cell`: `short val` and `bool possible[10]`. -/
structure Cell where
  val : Int
  possible : Mathlib.Vector Bool 10
  deriving DecidableEq

/-- The C `cell grid[dim][dim]` with `dim = 9`. -/
abbrev Grid := Mathlib.Vector (Mathlib.Vector Cell 9) 9

/-- The read `grid[r][c]`. -/
def Grid.cell (g : Grid) (r c : Fin 9) : Cell := (g.get r).get c

/-- The write `grid[r][c] = cl`. -/
def Grid.setCell (g : Grid) (r c : Fin 9) (cl : Cell) : Grid :=
  g.set r ((g.get r).set c cl)

/-- The index range `0 .. dim-1` of the `for` loops over rows and columns. -/
def idx9 : List (Fin 9) := [0, 1, 2, 3, 4, 5, 6, 7, 8]

/-- The index range `1 .. 9` of the `for(n = 1; n < 10; n++)` loops. -/
def digits : List (Fin 10) := [1, 2, 3, 4, 5, 6, 7, 8, 9]

/-- The three offsets of a loop `for(x = 3*s; x < 3*(s+1); x++)`. -/
def idx3 : List (Fin 3) := [0, 1, 2]

/-- All 81 positions in the order of the nested loops
`for(r = 0; r < dim; r++) for(c = 0; c < dim; c++)`. -/
def allCells : List (Fin 9 × Fin 9) :=
  idx9.flatMap fun r => idx9.map fun c => (r, c)

/-- The grid after the "Init grid" loops of `loadGrid` (lines 118-123):
every value 0 and every flag `possible[0..9]` true. -/
def freshGrid : Grid :=
  Mathlib.Vector.replicate 9
    (Mathlib.Vector.replicate 9 { val := 0, possible := Mathlib.Vector.replicate 10 true })

/-! ## insertValue -/

/-- The assignment `grid[row][col].val = val`. -/
def setVal (g : Grid) (row col : Fin 9) (v : Int) : Grid :=
  g.setCell row col { g.cell row col with val := v }

/-- The assignment `grid[r][c].possible[n] = false`. -/
def clearPossible (g : Grid) (n : Fin 10) (p : Fin 9 × Fin 9) : Grid :=
  g.setCell p.1 p.2 { g.cell p.1 p.2 with possible := (g.cell p.1 p.2).possible.set n false }

/-- Row index `3 * squareRow + i` of the square loop, `squareRow = row / 3`. -/
def squareIdx (x : Fin 9) (i : Fin 3) : Fin 9 :=
  ⟨3 * (x.val / 3) + i.val, by omega⟩

/-- The cells visited by the square loops of `insertValue` (lines 165-167). -/
def squareCells (row col : Fin 9) : List (Fin 9 × Fin 9) :=
  idx3.flatMap fun i => idx3.map fun j => (squareIdx row i, squareIdx col j)

/-- The function `insertValue` (lines 147-168).  The value is an index into
`possible[10]`, the position an index into the grid. -/
def insertValue (grid : Grid) (val : Fin 10) (row col : Fin 9) : Grid :=
  -- Insert value
  let g1 := setVal grid row col (val.val : Int)
  -- Update possible for the cell
  let g2 := digits.foldl (fun g n => clearPossible g n (row, col)) g1
  -- Update possible for the column
  let g3 := idx9.foldl (fun g r => clearPossible g val (r, col)) g2
  -- Update possible for the row
  let g4 := idx9.foldl (fun g c => clearPossible g val (row, c)) g3
  -- Update possible for the square
  (squareCells row col).foldl (fun g p => clearPossible g val p) g4

/-! ## countPossibilities -/

/-- The function `countPossibilities` (lines 181-185) on the cell it reads:
`cnt += possible[n]` for `n = 1 .. 9`. -/
def countCell (cl : Cell) : Nat :=
  digits.foldl (fun cnt n => cnt + (if cl.possible.get n then 1 else 0)) 0

/-- The call `countPossibilities(grid, r, c)` with indices in range. -/
def countPossibilities (grid : Grid) (r c : Fin 9) : Nat :=
  countCell (grid.cell r c)

/-! ## isSudokuComplete -/

/-- The local array `int occurrences[10]`. -/
abbrev Occ := Fin 10 → Nat

/-- The loop `for(n = 1; n < 10; n++) occurrences[n] = 0`. -/
def resetOcc (occ : Occ) : Occ :=
  digits.foldl (fun o n => fun m => if m = n then 0 else o m) occ

/-- The statement `occurrences[v]++`; `none` when `v` is not an index of the
array. -/
def bumpOcc (occ : Occ) (v : Int) : Option Occ :=
  if 0 ≤ v ∧ v < 10 then
    some fun m => if (m.val : Int) = v then occ m + 1 else occ m
  else none

/-- The counting loop over the cells of one group. -/
def countGroup (grid : Grid) : List (Fin 9 × Fin 9) → Occ → Option Occ
  | [], occ => some occ
  | p :: ps, occ =>
    match bumpOcc occ (grid.cell p.1 p.2).val with
    | none => none
    | some occ1 => countGroup grid ps occ1

/-- The loop `for(n = 1; n < 10; n++) if(occurrences[n] != 1) return false`:
true when the loop runs to its end. -/
def occOk (occ : Occ) : Bool :=
  digits.all fun n => occ n == 1

/-- The cells of row `r`, in the order of the loop on `c` (line 261). -/
def rowCells (r : Fin 9) : List (Fin 9 × Fin 9) := idx9.map fun c => (r, c)

/-- The cells of column `c`, in the order of the loop on `r` (line 269). -/
def colCells (c : Fin 9) : List (Fin 9 × Fin 9) := idx9.map fun r => (r, c)

/-- The cells of square `square`, in the order of the loop on `pos`
(line 277): `grid[3*(square/3) + pos/3][3*(square%3) + pos%3]`. -/
def blockCells (square : Fin 9) : List (Fin 9 × Fin 9) :=
  idx9.map fun pos =>
    (⟨3 * (square.val / 3) + pos.val / 3, by omega⟩,
     ⟨3 * (square.val % 3) + pos.val % 3, by omega⟩)

/-- The 27 groups in the order the three outer loops visit them. -/
def allGroups : List (List (Fin 9 × Fin 9)) :=
  idx9.map rowCells ++ idx9.map colCells ++ idx9.map blockCells

/-- One outer-loop iteration after another: reset, count, check.  `none` is
an access outside `occurrences`, `some false` the early `return false`. -/
def checkGroups (grid : Grid) : List (List (Fin 9 × Fin 9)) → Occ → Option Bool
  | [], _ => some true
  | grp :: rest, occ =>
    match countGroup grid grp (resetOcc occ) with
    | none => none
    | some occ1 => if occOk occ1 then checkGroups grid rest occ1 else some false

/-- The function `isSudokuComplete` (lines 253-284).  Only `occurrences[0]`
is initialised (to 1) before the loops; the other slots are reset before
they are read. -/
def isSudokuComplete (grid : Grid) : Option Bool :=
  checkGroups grid allGroups (fun m => if m = 0 then 1 else 0)

/-! ## solveSudoku -/

/-- The search `for(; !possible[n]; n++) {}` started at `n`: the first index
`≥ n` whose flag is set, `none` when the search leaves the array
(`n = 10`).  The first argument bounds the number of iterations. -/
def searchFrom (possible : Mathlib.Vector Bool 10) : Nat → Nat → Option (Fin 10)
  | 0, _ => none
  | k + 1, n =>
    if h : n < 10 then
      if possible.get ⟨n, h⟩ then some ⟨n, h⟩ else searchFrom possible k (n + 1)
    else none

/-- What one pass of the nested `for` loops (lines 197-222) ends with. -/
inductive Scan where
  /-- The pass met `if(poss == 0) return false`. -/
  | contradiction
  /-- A cell with one possibility was filled (`moveDone = true`). -/
  | moved (g : Grid)
  /-- No move was done; the tracked cell `(rMinPoss, cMinPoss)`, `none`
  standing for the initial `-1, -1`. -/
  | fixed (best : Option (Fin 9 × Fin 9))
  /-- An array was read outside its bounds. -/
  | outOfBounds
  deriving DecidableEq

/-- The body of the nested `for` loops over the remaining cells, with the
tracked cell `(rMinPoss, cMinPoss)` as state.  The loops stop as soon as
`moveDone` is set. -/
def scanCells (grid : Grid) : List (Fin 9 × Fin 9) → Option (Fin 9 × Fin 9) → Scan
  | [], best => .fixed best
  | (r, c) :: rest, best =>
    -- Only consider cell if empty
    if (grid.cell r c).val = 0 then
      let poss := countPossibilities grid r c
      -- If 0 possibilities, sudoku is impossible
      if poss = 0 then .contradiction
      -- If 1 possibility, insert it
      else if poss = 1 then
        match searchFrom (grid.cell r c).possible 10 1 with
        | some n => .moved (insertValue grid n r c)
        | none => .outOfBounds
      else
        match best with
        | none => scanCells grid rest (some (r, c))
        | some (rMinPoss, cMinPoss) =>
          if poss < countPossibilities grid rMinPoss cMinPoss then
            scanCells grid rest (some (r, c))
          else scanCells grid rest best
    else scanCells grid rest best

/-- What the `while(moveDone)` loop ends with. -/
inductive Propagated where
  /-- The function returned false from inside the loop; the grid as left. -/
  | contradiction (g : Grid)
  /-- The loop ended with `moveDone = false`. -/
  | fixed (g : Grid) (best : Option (Fin 9 × Fin 9))
  /-- An array was read outside its bounds. -/
  | outOfBounds
  /-- The bound on the number of passes was reached. -/
  | outOfFuel
  deriving DecidableEq

/-- The `while(moveDone)` loop (lines 192-223); the first argument bounds the
number of passes. -/
def propagate : Nat → Grid → Propagated
  | 0, _ => .outOfFuel
  | k + 1, grid =>
    match scanCells grid allCells none with
    | .contradiction => .contradiction grid
    | .moved g => propagate k g
    | .fixed best => .fixed grid best
    | .outOfBounds => .outOfBounds

/-- What a call of `solveSudoku` ends with. -/
inductive Outcome where
  /-- The call returned `b`, leaving `g` in the caller's array. -/
  | returned (b : Bool) (g : Grid)
  /-- The call accessed an array outside its bounds. -/
  | outOfBounds
  /-- The recursion bound of the model was reached. -/
  | outOfFuel
  deriving DecidableEq

/-- The trial loop `for(i = 0; i < poss; i++)` (lines 230-248) with `k`
iterations left and the running index `n`; `solve` is the recursive call. -/
def branch (solve : Grid → Outcome) (grid : Grid) (rMinPoss cMinPoss : Fin 9) :
    Nat → Nat → Outcome
  | 0, _ => .returned false grid
  | k + 1, n =>
    -- pick one element in the cell with the least possibilities
    match searchFrom (grid.cell rMinPoss cMinPoss).possible 10 n with
    | none => .outOfBounds
    | some m =>
      -- the clone, with the element inserted
      match solve (insertValue grid m rMinPoss cMinPoss) with
      | .returned true gridCopy => .returned true gridCopy
      | .returned false _ => branch solve grid rMinPoss cMinPoss k (m.val + 1)
      | .outOfBounds => .outOfBounds
      | .outOfFuel => .outOfFuel

/-- The function `solveSudoku` (lines 187-251).  The argument `fuel` bounds
the depth of the recursion (a call with `fuel = 1` may not recurse); the
`while` loop runs at most 82 passes. -/
def solveSudoku : Nat → Grid → Outcome
  | 0, _ => .outOfFuel
  | fuel + 1, grid =>
    match propagate 82 grid with
    | .contradiction g => .returned false g
    | .outOfBounds => .outOfBounds
    | .outOfFuel => .outOfFuel
    | .fixed g best =>
      match isSudokuComplete g with
      | none => .outOfBounds
      | some true => .returned true g
      | some false =>
        match best with
        -- countPossibilities(grid, -1, -1)
        | none => .outOfBounds
        | some (rMinPoss, cMinPoss) =>
          branch (solveSudoku fuel) g rMinPoss cMinPoss
            (countPossibilities g rMinPoss cMinPoss) 1

/-! ## Seeding a grid with givens (the load loop of `loadGrid`) -/

/-- The "Load grid from file" loops of `loadGrid` (lines 132-141) on the
characters already read: `none` is the character `-`, `some v` a digit. -/
def seedCells (givens : Fin 9 → Fin 9 → Option (Fin 10)) :
    List (Fin 9 × Fin 9) → Grid → Grid
  | [], g => g
  | (r, c) :: rest, g =>
    match givens r c with
    | some v => seedCells givens rest (insertValue g v r c)
    | none => seedCells givens rest g

/-- The grid `loadGrid` hands to `solveSudoku`. -/
def seed (givens : Fin 9 → Fin 9 → Option (Fin 10)) : Grid :=
  seedCells givens allCells freshGrid

/-! ## Notions used to state the properties -/

/-- Position `(r, c)` lies in the column, the row or the 3×3 square of
`(row, col)` (the position itself included). -/
def sameUnit (row col r c : Fin 9) : Prop :=
  c = col ∨ r = row ∨ (r.val / 3 = row.val / 3 ∧ c.val / 3 = col.val / 3)

instance (row col r c : Fin 9) : Decidable (sameUnit row col r c) := by
  unfold sameUnit
  infer_instance

/-- Number of set flags among `possible[n .. 9]`; the first argument bounds the
number of indices looked at. -/
def cntFrom (possible : Mathlib.Vector Bool 10) : Nat → Nat → Nat
  | 0, _ => 0
  | k + 1, n =>
    if h : n < 10 then
      (if possible.get ⟨n, h⟩ then 1 else 0) + cntFrom possible k (n + 1)
    else 0

/-- Number of candidates `m` with `n ≤ m ≤ 9`. -/
def candCount (possible : Mathlib.Vector Bool 10) (n : Nat) : Nat :=
  cntFrom possible 10 n

/-- Number of unassigned cells (value 0) of a grid. -/
def unassigned (g : Grid) : Nat :=
  allCells.countP fun p => (g.cell p.1 p.2).val = 0

/-- A forced move of the propagation loop: an unassigned cell with exactly
one possibility receives the value the search finds. -/
def Forced (g g1 : Grid) : Prop :=
  ∃ (r c : Fin 9) (n : Fin 10), (g.cell r c).val = 0 ∧ countPossibilities g r c = 1 ∧
    searchFrom (g.cell r c).possible 10 1 = some n ∧ g1 = insertValue g n r c

/-- A commit of one of its candidates (a value in 1..9 whose flag is set) to
an unassigned cell. -/
def Legal (g g1 : Grid) : Prop :=
  ∃ (r c : Fin 9) (n : Fin 10), (g.cell r c).val = 0 ∧ 1 ≤ n.val ∧
    (g.cell r c).possible.get n = true ∧ g1 = insertValue g n r c

/-- Reachable by a sequence of commits of candidates to unassigned cells. -/
def Reach : Grid → Grid → Prop := Relation.ReflTransGen Legal

/-- Reachable by a sequence of forced moves. -/
def ForcedReach : Grid → Grid → Prop := Relation.ReflTransGen Forced

/-- Every cell value is one of 0..9. -/
def InRange (g : Grid) : Prop :=
  ∀ r c : Fin 9, 0 ≤ (g.cell r c).val ∧ (g.cell r c).val ≤ 9

/-- Index `3 * i + a` of the `a`-th row (or column) of the `i`-th band. -/
def blockPos (i a : Fin 3) : Fin 9 := ⟨3 * i.val + a.val, by omega⟩

/-- The reference notion of a completed, valid table of values, in the words
of the specification: each of the 9 rows, the 9 columns and the 9 blocks with
top-left corner `(3i, 3j)` contains every value 1..9 exactly once. -/
def ValidTable (t : Fin 9 → Fin 9 → Int) : Prop :=
  ∀ n : Int, 1 ≤ n → n ≤ 9 →
    (∀ r : Fin 9, ∃! c : Fin 9, t r c = n) ∧
    (∀ c : Fin 9, ∃! r : Fin 9, t r c = n) ∧
    (∀ i j : Fin 3, ∃! ab : Fin 3 × Fin 3, t (blockPos i ab.1) (blockPos j ab.2) = n)

/-- The table of values of a grid. -/
def Grid.vals (g : Grid) : Fin 9 → Fin 9 → Int := fun r c => (g.cell r c).val

/-- The grid is complete and valid in the sense of the specification. -/
def SpecValid (g : Grid) : Prop := ValidTable g.vals

/-- What the counting loops establish for one group of cells: every value is
an index of `occurrences`, and each of 1..9 is counted exactly once. -/
def GroupOk (g : Grid) (grp : List (Fin 9 × Fin 9)) : Prop :=
  (∀ p ∈ grp, 0 ≤ (g.cell p.1 p.2).val ∧ (g.cell p.1 p.2).val < 10) ∧
  ∀ m : Fin 10, 1 ≤ m.val →
    grp.countP (fun p => decide ((g.cell p.1 p.2).val = (m.val : Int))) = 1

/-- No assigned cell clashes with another cell of its row, column or square,
apart from the pairs the relation `E` allows: two distinct cells of one unit
holding the same non-zero value are related by `E`, and an unassigned cell
has lost the value of every assigned cell of its units as a candidate. -/
def NoClash (E : Fin 9 × Fin 9 → Fin 9 × Fin 9 → Prop) (g : Grid) : Prop :=
  InRange g ∧
  (∀ r c r1 c1 : Fin 9, sameUnit r c r1 c1 → (r1, c1) ≠ (r, c) → (g.cell r c).val ≠ 0 →
    (g.cell r1 c1).val = (g.cell r c).val → E (r, c) (r1, c1)) ∧
  (∀ (r c r1 c1 : Fin 9) (m : Fin 10), sameUnit r c r1 c1 → (g.cell r c).val = (m.val : Int) →
    1 ≤ m.val → (g.cell r1 c1).val = 0 → (g.cell r1 c1).possible.get m = false)

/-- The table `S` is compatible with the grid: it agrees with every assigned
cell, and at every unassigned cell its value is one of the candidates. -/
def Compatible (S : Fin 9 → Fin 9 → Int) (g : Grid) : Prop :=
  ∀ r c : Fin 9,
    ((g.cell r c).val ≠ 0 → (g.cell r c).val = S r c) ∧
    ((g.cell r c).val = 0 →
      ∃ m : Fin 10, (m.val : Int) = S r c ∧ 1 ≤ m.val ∧ (g.cell r c).possible.get m = true)

/-! ## Concrete grids -/

/-- The rows of a completed grid. -/
def solvedRows : List (List (Fin 10)) :=
  [[1, 2, 3, 4, 5, 6, 7, 8, 9],
   [4, 5, 6, 7, 8, 9, 1, 2, 3],
   [7, 8, 9, 1, 2, 3, 4, 5, 6],
   [2, 3, 1, 6, 7, 4, 8, 9, 5],
   [8, 7, 5, 9, 1, 2, 3, 6, 4],
   [6, 9, 4, 5, 3, 8, 2, 1, 7],
   [3, 1, 7, 2, 6, 5, 9, 4, 8],
   [5, 4, 2, 8, 9, 7, 6, 3, 1],
   [9, 6, 8, 3, 4, 1, 5, 7, 2]]

/-- The entry of `solvedRows` at row `r` and column `c`. -/
def solvedEntry (r c : Fin 9) : Fin 10 := (solvedRows.getD r.val []).getD c.val 0

/-- The state `loadGrid` leaves a cell in whose character was the digit `v`
(when no zero is among the givens): the value set, `possible[1..9]` cleared,
`possible[0]` still true. -/
def givenCell (v : Fin 10) : Cell :=
  { val := (v.val : Int),
    possible := ⟨[true, false, false, false, false, false, false, false, false, false], rfl⟩ }

/-- The grid holding `solvedRows`. -/
def solvedGrid : Grid :=
  Mathlib.Vector.ofFn fun r => Mathlib.Vector.ofFn fun c => givenCell (solvedEntry r c)

/-- The grid `loadGrid` builds from a file of 81 characters `1`. -/
def allOnes : Grid := seed fun _ _ => some 1

/-- The digit a value in 0..9 stands for, as an index of `possible`. -/
def digitOf (v : Int) : Fin 10 := Fin.ofNat v.toNat

/-- The givens of a file that holds every cell of `S` except `(r0, c0)`. -/
def allBut (S : Grid) (r0 c0 : Fin 9) : Fin 9 → Fin 9 → Option (Fin 10) :=
  fun r c => if r = r0 ∧ c = c0 then none else some (digitOf (S.cell r c).val)

/-- The givens of a file that holds the rows of `solvedRows` after a first
row of nine characters `-`. -/
def firstRowBlank : Fin 9 → Fin 9 → Option (Fin 10) :=
  fun r c => if r.val = 0 then none else some (solvedEntry r c)

/-- The grid `loadGrid` builds from a file whose only digits are two `v` in
row `r`, at columns `c1` and `c2`. -/
def twoInRow (v : Fin 10) (r c1 c2 : Fin 9) : Grid :=
  insertValue (insertValue freshGrid v r c1) v r c2

/-- The pair of positions `(r, c1)`, `(r, c2)`, in either order. -/
def rowPair (r c1 c2 : Fin 9) : Fin 9 × Fin 9 → Fin 9 × Fin 9 → Prop :=
  fun p q => (p = (r, c1) ∧ q = (r, c2)) ∨ (p = (r, c2) ∧ q = (r, c1))


/-- Position `p` comes before position `q` in the order of the scan (row by
row, and within a row column by column). -/
def rowMajorLt (p q : Fin 9 × Fin 9) : Prop :=
  p.1 < q.1 ∨ (p.1 = q.1 ∧ p.2 < q.2)

instance (p q : Fin 9 × Fin 9) : Decidable (rowMajorLt p q) := by
  unfold rowMajorLt
  infer_instance

/-- The tracked cell `best` is right for the cells `pre` scanned so far: it is
unset when none of them is unassigned, and otherwise it is an unassigned cell
of `pre` with strictly fewer possibilities than every unassigned cell scanned
before it and at most as many as every unassigned cell scanned after it. -/
def FirstMin (g : Grid) (pre : List (Fin 9 × Fin 9)) : Option (Fin 9 × Fin 9) → Prop
  | none => ∀ p ∈ pre, (g.cell p.1 p.2).val ≠ 0
  | some q =>
    ∃ l1 l2 : List (Fin 9 × Fin 9), pre = l1 ++ q :: l2 ∧ (g.cell q.1 q.2).val = 0 ∧
      (∀ p ∈ l1, (g.cell p.1 p.2).val = 0 →
        countPossibilities g q.1 q.2 < countPossibilities g p.1 p.2) ∧
      (∀ p ∈ l2, (g.cell p.1 p.2).val = 0 →
        countPossibilities g q.1 q.2 ≤ countPossibilities g p.1 p.2)

/-- The consistency of a grid: no two distinct cells sharing a row, column or
3×3 block hold the same non-zero value, and the candidate set of every
unassigned cell is exactly the set of values 1..9 not held by any other cell
of its row, column or block. -/
def Consistent (g : Grid) : Prop :=
  (∀ r c r1 c1 : Fin 9, sameUnit r c r1 c1 → (r1, c1) ≠ (r, c) → (g.cell r c).val ≠ 0 →
    (g.cell r1 c1).val ≠ (g.cell r c).val) ∧
  (∀ r c : Fin 9, (g.cell r c).val = 0 → ∀ m : Fin 10, 1 ≤ m.val →
    ((g.cell r c).possible.get m = true ↔
      ∀ r1 c1 : Fin 9, sameUnit r c r1 c1 → (r1, c1) ≠ (r, c) →
        (g.cell r1 c1).val ≠ (m.val : Int)))

/-! ## Reading a grid after a write -/

theorem cell_setCell (g : Grid) (r c : Fin 9) (cl : Cell) (r1 c1 : Fin 9) :
    (g.setCell r c cl).cell r1 c1 = if r1 = r ∧ c1 = c then cl else g.cell r1 c1 := by
  unfold Grid.setCell Grid.cell
  by_cases hr : r1 = r
  · subst hr
    rw [Mathlib.Vector.get_set_same]
    by_cases hc : c1 = c
    · subst hc
      simp [Mathlib.Vector.get_set_same]
    · have hc1 : c ≠ c1 := fun h => hc h.symm
      simp [hc, Mathlib.Vector.get_set_of_ne hc1]
  · have hr1 : r ≠ r1 := fun h => hr h.symm
    simp [hr, Mathlib.Vector.get_set_of_ne hr1]

theorem cell_freshGrid (r c : Fin 9) :
    freshGrid.cell r c = { val := 0, possible := Mathlib.Vector.replicate 10 true } := by
  unfold freshGrid Grid.cell
  rw [Mathlib.Vector.get_replicate, Mathlib.Vector.get_replicate]

theorem val_setVal (g : Grid) (row col : Fin 9) (v : Int) (r c : Fin 9) :
    ((setVal g row col v).cell r c).val
      = if r = row ∧ c = col then v else (g.cell r c).val := by
  unfold setVal
  rw [cell_setCell]
  split <;> rfl

theorem possible_setVal (g : Grid) (row col : Fin 9) (v : Int) (r c : Fin 9) :
    ((setVal g row col v).cell r c).possible = (g.cell r c).possible := by
  unfold setVal
  rw [cell_setCell]
  split
  · next h => rw [h.1, h.2]
  · rfl

theorem val_clearPossible (g : Grid) (n : Fin 10) (p : Fin 9 × Fin 9) (r c : Fin 9) :
    ((clearPossible g n p).cell r c).val = (g.cell r c).val := by
  unfold clearPossible
  rw [cell_setCell]
  split
  · next h => rw [h.1, h.2]
  · rfl

theorem possible_clearPossible (g : Grid) (n : Fin 10) (p : Fin 9 × Fin 9) (r c : Fin 9)
    (m : Fin 10) :
    ((clearPossible g n p).cell r c).possible.get m
      = if (m = n ∧ p = (r, c)) then false else (g.cell r c).possible.get m := by
  unfold clearPossible
  rw [cell_setCell]
  by_cases h : r = p.1 ∧ c = p.2
  · have hp : p = (r, c) := by rw [h.1, h.2]
    rw [if_pos h]
    subst hp
    by_cases hm : m = n
    · subst hm
      simp [Mathlib.Vector.get_set_same]
    · have hm1 : n ≠ m := fun h => hm h.symm
      simp [hm, Mathlib.Vector.get_set_of_ne hm1]
  · rw [if_neg h]
    have hp : ¬ p = (r, c) := by
      intro hp
      apply h
      rw [hp]
      exact ⟨rfl, rfl⟩
    simp [hp]

theorem val_foldl_clear {α : Type} (l : List α) (n : α → Fin 10) (f : α → Fin 9 × Fin 9)
    (g : Grid) (r c : Fin 9) :
    ((l.foldl (fun g x => clearPossible g (n x) (f x)) g).cell r c).val = (g.cell r c).val := by
  induction l generalizing g with
  | nil => rfl
  | cons x xs ih => rw [List.foldl_cons, ih, val_clearPossible]

theorem possible_foldl_clear {α : Type} (l : List α) (n : α → Fin 10)
    (f : α → Fin 9 × Fin 9) (g : Grid) (r c : Fin 9) (m : Fin 10) :
    ((l.foldl (fun g x => clearPossible g (n x) (f x)) g).cell r c).possible.get m
      = if (∃ x ∈ l, m = n x ∧ f x = (r, c)) then false else (g.cell r c).possible.get m := by
  induction l generalizing g with
  | nil => simp
  | cons x xs ih =>
    rw [List.foldl_cons, ih, possible_clearPossible]
    by_cases h1 : ∃ y ∈ xs, m = n y ∧ f y = (r, c)
    · have h2 : ∃ y ∈ x :: xs, m = n y ∧ f y = (r, c) := by
        obtain ⟨y, hy, hh⟩ := h1
        exact ⟨y, List.mem_cons_of_mem _ hy, hh⟩
      rw [if_pos h1, if_pos h2]
    · rw [if_neg h1]
      by_cases h3 : m = n x ∧ f x = (r, c)
      · have h2 : ∃ y ∈ x :: xs, m = n y ∧ f y = (r, c) := ⟨x, List.mem_cons_self _ _, h3⟩
        rw [if_pos h3, if_pos h2]
      · have h2 : ¬ ∃ y ∈ x :: xs, m = n y ∧ f y = (r, c) := by
          rintro ⟨y, hy, hh⟩
          rcases List.mem_cons.1 hy with rfl | hy
          · exact h3 hh
          · exact h1 ⟨y, hy, hh⟩
        rw [if_neg h3, if_neg h2]

/-! ## The effect of `insertValue`, cell by cell -/

theorem mem_idx9 : ∀ x : Fin 9, x ∈ idx9 := by decide

theorem mem_digits : ∀ m : Fin 10, m ∈ digits ↔ 1 ≤ m.val := by decide

theorem mem_idx3 : ∀ i : Fin 3, i ∈ idx3 := by decide

theorem squareIdx_iff : ∀ x r : Fin 9,
    (∃ i : Fin 3, squareIdx x i = r) ↔ r.val / 3 = x.val / 3 := by
  decide

theorem mem_squareCells (row col r c : Fin 9) :
    (r, c) ∈ squareCells row col ↔ (r.val / 3 = row.val / 3 ∧ c.val / 3 = col.val / 3) := by
  rw [← squareIdx_iff row r, ← squareIdx_iff col c]
  unfold squareCells
  rw [List.mem_flatMap]
  constructor
  · rintro ⟨i, _, h⟩
    obtain ⟨j, _, hj⟩ := List.mem_map.1 h
    exact ⟨⟨i, congrArg Prod.fst hj⟩, ⟨j, congrArg Prod.snd hj⟩⟩
  · rintro ⟨⟨i, hi⟩, ⟨j, hj⟩⟩
    exact ⟨i, mem_idx3 i, List.mem_map.2 ⟨j, mem_idx3 j, by rw [hi, hj]⟩⟩

theorem val_insertValue (g : Grid) (v : Fin 10) (row col r c : Fin 9) :
    ((insertValue g v row col).cell r c).val
      = if r = row ∧ c = col then (v.val : Int) else (g.cell r c).val := by
  unfold insertValue
  simp only []
  rw [val_foldl_clear (squareCells row col) (fun _ => v) (fun p => p),
    val_foldl_clear idx9 (fun _ => v) (fun c => (row, c)),
    val_foldl_clear idx9 (fun _ => v) (fun r => (r, col)),
    val_foldl_clear digits (fun n => n) (fun _ => (row, col)), val_setVal]

theorem possible_insertValue (g : Grid) (v : Fin 10) (row col r c : Fin 9) (m : Fin 10) :
    ((insertValue g v row col).cell r c).possible.get m
      = if (r = row ∧ c = col ∧ 1 ≤ m.val) ∨ (m = v ∧ sameUnit row col r c) then false
        else (g.cell r c).possible.get m := by
  unfold insertValue
  simp only []
  rw [possible_foldl_clear (squareCells row col) (fun _ => v) (fun p => p),
    possible_foldl_clear idx9 (fun _ => v) (fun c => (row, c)),
    possible_foldl_clear idx9 (fun _ => v) (fun r => (r, col)),
    possible_foldl_clear digits (fun n => n) (fun _ => (row, col)), possible_setVal]
  have e1 : (∃ x ∈ squareCells row col, m = v ∧ x = (r, c))
      ↔ (m = v ∧ (r.val / 3 = row.val / 3 ∧ c.val / 3 = col.val / 3)) := by
    constructor
    · rintro ⟨x, hx, hm, rfl⟩
      exact ⟨hm, (mem_squareCells row col r c).1 hx⟩
    · rintro ⟨hm, h⟩
      exact ⟨(r, c), (mem_squareCells row col r c).2 h, hm, rfl⟩
  have e2 : (∃ x ∈ idx9, m = v ∧ (row, x) = (r, c)) ↔ (m = v ∧ r = row) := by
    constructor
    · rintro ⟨x, _, hm, hx⟩
      exact ⟨hm, (congrArg Prod.fst hx).symm⟩
    · rintro ⟨hm, h⟩
      exact ⟨c, mem_idx9 c, hm, by rw [h]⟩
  have e3 : (∃ x ∈ idx9, m = v ∧ (x, col) = (r, c)) ↔ (m = v ∧ c = col) := by
    constructor
    · rintro ⟨x, _, hm, hx⟩
      exact ⟨hm, (congrArg Prod.snd hx).symm⟩
    · rintro ⟨hm, h⟩
      exact ⟨r, mem_idx9 r, hm, by rw [h]⟩
  have e4 : (∃ x ∈ digits, m = x ∧ (row, col) = (r, c)) ↔ (r = row ∧ c = col ∧ 1 ≤ m.val) := by
    constructor
    · rintro ⟨x, hx, rfl, h⟩
      exact ⟨(congrArg Prod.fst h).symm, (congrArg Prod.snd h).symm, (mem_digits _).1 hx⟩
    · rintro ⟨h1, h2, h3⟩
      exact ⟨m, (mem_digits m).2 h3, rfl, by rw [h1, h2]⟩
  simp only [e1, e2, e3, e4]
  unfold sameUnit
  by_cases h1 : m = v <;> by_cases h2 : r = row <;> by_cases h3 : c = col <;>
    by_cases h4 : 1 ≤ m.val <;>
    by_cases h5 : (r.val / 3 = row.val / 3 ∧ c.val / 3 = col.val / 3) <;>
    simp [h1, h2, h3, h4, h5]


/-! ## Counting and searching candidates -/

theorem cntFrom_unfold (p : Mathlib.Vector Bool 10) (k n : Nat) :
    cntFrom p (k + 1) n
      = if h : n < 10 then (if p.get ⟨n, h⟩ then 1 else 0) + cntFrom p k (n + 1) else 0 :=
  rfl

theorem cntFrom_succ (p : Mathlib.Vector Bool 10) (k : Nat) :
    ∀ n, 10 ≤ n + k → cntFrom p (k + 1) n = cntFrom p k n := by
  induction k with
  | zero =>
    intro n h
    have hn : ¬ n < 10 := by omega
    simp [cntFrom, hn]
  | succ k ih =>
    intro n h
    rw [cntFrom_unfold p (k + 1) n, cntFrom_unfold p k n]
    by_cases hn : n < 10
    · rw [dif_pos hn, dif_pos hn, ih (n + 1) (by omega)]
    · rw [dif_neg hn, dif_neg hn]

theorem candCount_step (p : Mathlib.Vector Bool 10) (n : Nat) (h : n < 10) :
    candCount p n = (if p.get ⟨n, h⟩ then 1 else 0) + candCount p (n + 1) := by
  unfold candCount
  rw [cntFrom_unfold p 9 n, dif_pos h, cntFrom_succ p 9 (n + 1) (by omega)]

theorem candCount_ge (p : Mathlib.Vector Bool 10) (n : Nat) (h : 10 ≤ n) :
    candCount p n = 0 := by
  unfold candCount
  rw [cntFrom_unfold p 9 n, dif_neg (by omega)]

theorem countCell_eq (cl : Cell) : countCell cl = candCount cl.possible 1 := by
  rw [candCount_step _ 1 (by omega), candCount_step _ 2 (by omega),
    candCount_step _ 3 (by omega), candCount_step _ 4 (by omega),
    candCount_step _ 5 (by omega), candCount_step _ 6 (by omega),
    candCount_step _ 7 (by omega), candCount_step _ 8 (by omega),
    candCount_step _ 9 (by omega), candCount_ge _ 10 (by omega)]
  simp only [countCell, digits, List.foldl_cons, List.foldl_nil]
  have h1 : cl.possible.get ⟨1, by omega⟩ = cl.possible.get 1 := rfl
  have h2 : cl.possible.get ⟨2, by omega⟩ = cl.possible.get 2 := rfl
  have h3 : cl.possible.get ⟨3, by omega⟩ = cl.possible.get 3 := rfl
  have h4 : cl.possible.get ⟨4, by omega⟩ = cl.possible.get 4 := rfl
  have h5 : cl.possible.get ⟨5, by omega⟩ = cl.possible.get 5 := rfl
  have h6 : cl.possible.get ⟨6, by omega⟩ = cl.possible.get 6 := rfl
  have h7 : cl.possible.get ⟨7, by omega⟩ = cl.possible.get 7 := rfl
  have h8 : cl.possible.get ⟨8, by omega⟩ = cl.possible.get 8 := rfl
  have h9 : cl.possible.get ⟨9, by omega⟩ = cl.possible.get 9 := rfl
  rw [h1, h2, h3, h4, h5, h6, h7, h8, h9]
  omega

theorem candCount_pos (p : Mathlib.Vector Bool 10) (m : Fin 10) (hm : p.get m = true) :
    ∀ d n, n + d = m.val → 1 ≤ candCount p n := by
  intro d
  induction d with
  | zero =>
    intro n h
    have hn : n < 10 := by omega
    have e : (⟨n, hn⟩ : Fin 10) = m := Fin.ext (by simpa using h)
    rw [candCount_step p n hn, e, hm]
    simp
  | succ d ih =>
    intro n h
    have hn : n < 10 := by omega
    have := ih (n + 1) (by omega)
    rw [candCount_step p n hn]
    omega

theorem candCount_pos_of (p : Mathlib.Vector Bool 10) (m : Fin 10) (n : Nat)
    (hm : p.get m = true) (hn : n ≤ m.val) : 1 ≤ candCount p n :=
  candCount_pos p m hm (m.val - n) n (by omega)

theorem searchFrom_spec (p : Mathlib.Vector Bool 10) (k : Nat) :
    ∀ n, 10 ≤ n + k → 1 ≤ candCount p n →
      ∃ m : Fin 10, searchFrom p k n = some m ∧ n ≤ m.val ∧ p.get m = true ∧
        (∀ j : Fin 10, n ≤ j.val → j.val < m.val → p.get j = false) ∧
        candCount p n = candCount p (m.val + 1) + 1 := by
  induction k with
  | zero =>
    intro n h hc
    rw [candCount_ge p n (by omega)] at hc
    omega
  | succ k ih =>
    intro n h hc
    by_cases hn : n < 10
    · rw [searchFrom, dif_pos hn]
      by_cases hp : p.get ⟨n, hn⟩ = true
      · rw [if_pos hp]
        refine ⟨⟨n, hn⟩, rfl, le_refl _, hp, ?_, ?_⟩
        · intro j h1 h2
          simp only at h2
          omega
        · rw [candCount_step p n hn, if_pos hp]
          simp only
          omega
      · rw [if_neg hp]
        have e : candCount p n = candCount p (n + 1) := by
          rw [candCount_step p n hn, if_neg hp]
          omega
        rw [e] at hc
        obtain ⟨m, h1, h2, h3, h4, h5⟩ := ih (n + 1) (by omega) hc
        refine ⟨m, h1, by omega, h3, ?_, by rw [e]; exact h5⟩
        intro j hj1 hj2
        by_cases hj : j.val = n
        · have ej : j = ⟨n, hn⟩ := Fin.ext hj
          rw [ej]
          simpa using hp
        · exact h4 j (by omega) hj2
    · rw [candCount_ge p n (by omega)] at hc
      omega

theorem searchFrom_unique (p : Mathlib.Vector Bool 10) (k n : Nat) (s : Fin 10)
    (hk : 10 ≤ n + k) (hc : candCount p n = 1) (hs : p.get s = true) (hn : n ≤ s.val) :
    searchFrom p k n = some s := by
  obtain ⟨m, h1, _, _, h4, h5⟩ := searchFrom_spec p k n hk (by omega)
  rw [h1]
  have hle : m.val ≤ s.val := by
    by_contra hlt
    have := h4 s hn (by omega)
    rw [hs] at this
    exact Bool.noConfusion this
  have hge : ¬ m.val < s.val := by
    intro hlt
    have := candCount_pos_of p s (m.val + 1) hs (by omega)
    omega
  have : m = s := Fin.ext (by omega)
  rw [this]

/-! ## One pass of the scan -/

theorem scanCells_spec (g : Grid) (l : List (Fin 9 × Fin 9)) :
    ∀ best : Option (Fin 9 × Fin 9),
      match scanCells g l best with
      | .contradiction =>
          ∃ p ∈ l, (g.cell p.1 p.2).val = 0 ∧ countPossibilities g p.1 p.2 = 0
      | .moved g1 =>
          ∃ (r c : Fin 9) (n : Fin 10), (r, c) ∈ l ∧ (g.cell r c).val = 0 ∧
            countPossibilities g r c = 1 ∧
            searchFrom (g.cell r c).possible 10 1 = some n ∧ g1 = insertValue g n r c
      | .fixed b =>
          (∀ p ∈ l, (g.cell p.1 p.2).val = 0 → 2 ≤ countPossibilities g p.1 p.2) ∧
          (b = none → best = none ∧ ∀ p ∈ l, (g.cell p.1 p.2).val ≠ 0) ∧
          (∀ q, b = some q → best = some q ∨ (q ∈ l ∧ (g.cell q.1 q.2).val = 0))
      | .outOfBounds => False := by
  induction l with
  | nil =>
    intro best
    simp [scanCells]
  | cons x xs ih =>
    intro best
    obtain ⟨r, c⟩ := x
    rw [scanCells]
    by_cases hv : (g.cell r c).val = 0
    · rw [if_pos hv]
      simp only
      by_cases h0 : countPossibilities g r c = 0
      · rw [if_pos h0]
        exact ⟨(r, c), List.mem_cons_self _ _, hv, h0⟩
      · rw [if_neg h0]
        by_cases h1 : countPossibilities g r c = 1
        · rw [if_pos h1]
          have hc : 1 ≤ candCount (g.cell r c).possible 1 := by
            have := countCell_eq (g.cell r c)
            unfold countPossibilities at h1
            omega
          obtain ⟨m, hm, _⟩ := searchFrom_spec (g.cell r c).possible 10 1 (by omega) hc
          rw [hm]
          exact ⟨r, c, m, List.mem_cons_self _ _, hv, h1, hm, rfl⟩
        · rw [if_neg h1]
          have key : ∀ b1 : Option (Fin 9 × Fin 9),
              (b1 = some (r, c) ∨ b1 = best) → b1 ≠ none →
              match scanCells g xs b1 with
              | .contradiction =>
                  ∃ p ∈ (r, c) :: xs, (g.cell p.1 p.2).val = 0 ∧
                    countPossibilities g p.1 p.2 = 0
              | .moved g1 =>
                  ∃ (r1 c1 : Fin 9) (n : Fin 10), (r1, c1) ∈ (r, c) :: xs ∧
                    (g.cell r1 c1).val = 0 ∧ countPossibilities g r1 c1 = 1 ∧
                    searchFrom (g.cell r1 c1).possible 10 1 = some n ∧
                    g1 = insertValue g n r1 c1
              | .fixed b =>
                  (∀ p ∈ (r, c) :: xs, (g.cell p.1 p.2).val = 0 →
                    2 ≤ countPossibilities g p.1 p.2) ∧
                  (b = none → best = none ∧ ∀ p ∈ (r, c) :: xs, (g.cell p.1 p.2).val ≠ 0) ∧
                  (∀ q, b = some q →
                    best = some q ∨ (q ∈ (r, c) :: xs ∧ (g.cell q.1 q.2).val = 0))
              | .outOfBounds => False := by
            intro b1 hb1 hne
            have := ih b1
            revert this
            cases scanCells g xs b1 with
            | contradiction =>
              rintro ⟨p, hp, h⟩
              exact ⟨p, List.mem_cons_of_mem _ hp, h⟩
            | moved g1 =>
              rintro ⟨r1, c1, n, hp, h⟩
              exact ⟨r1, c1, n, List.mem_cons_of_mem _ hp, h⟩
            | fixed b =>
              rintro ⟨ha, hb, hc⟩
              refine ⟨?_, ?_, ?_⟩
              · intro p hp hz
                rcases List.mem_cons.1 hp with rfl | hp
                · simp only
                  omega
                · exact ha p hp hz
              · intro hbn
                exact absurd (hb hbn).1 hne
              · intro q hq
                rcases hc q hq with h | ⟨h1, h2⟩
                · rcases hb1 with e | e
                  · rw [e] at h
                    have : q = (r, c) := (Option.some.inj h).symm
                    subst this
                    exact Or.inr ⟨List.mem_cons_self _ _, hv⟩
                  · rw [e] at h
                    exact Or.inl h
                · exact Or.inr ⟨List.mem_cons_of_mem _ h1, h2⟩
            | outOfBounds => exact id
          cases hbest : best with
          | none =>
            have := key (some (r, c)) (Or.inl rfl) (by simp)
            rw [hbest] at this
            exact this
          | some q =>
            obtain ⟨rm, cm⟩ := q
            simp only
            by_cases hlt : countPossibilities g r c < countPossibilities g rm cm
            · rw [if_pos hlt]
              have := key (some (r, c)) (Or.inl rfl) (by simp)
              rw [hbest] at this
              exact this
            · rw [if_neg hlt]
              have := key (some (rm, cm)) (Or.inr hbest.symm) (by simp)
              rw [hbest] at this
              exact this
    · rw [if_neg hv]
      have := ih best
      revert this
      cases scanCells g xs best with
      | contradiction =>
        rintro ⟨p, hp, h⟩
        exact ⟨p, List.mem_cons_of_mem _ hp, h⟩
      | moved g1 =>
        rintro ⟨r1, c1, n, hp, h⟩
        exact ⟨r1, c1, n, List.mem_cons_of_mem _ hp, h⟩
      | fixed b =>
        rintro ⟨ha, hb, hc⟩
        refine ⟨?_, ?_, ?_⟩
        · intro p hp hz
          rcases List.mem_cons.1 hp with rfl | hp
          · exact absurd hz hv
          · exact ha p hp hz
        · intro hbn
          refine ⟨(hb hbn).1, ?_⟩
          intro p hp
          rcases List.mem_cons.1 hp with rfl | hp
          · exact hv
          · exact (hb hbn).2 p hp
        · intro q hq
          rcases hc q hq with h | ⟨h1, h2⟩
          · exact Or.inl h
          · exact Or.inr ⟨List.mem_cons_of_mem _ h1, h2⟩
      | outOfBounds => exact id

theorem scan_contradiction {g : Grid} {l : List (Fin 9 × Fin 9)}
    {best : Option (Fin 9 × Fin 9)} (h : scanCells g l best = .contradiction) :
    ∃ p ∈ l, (g.cell p.1 p.2).val = 0 ∧ countPossibilities g p.1 p.2 = 0 := by
  have := scanCells_spec g l best
  rw [h] at this
  exact this

theorem scan_moved {g g1 : Grid} {l : List (Fin 9 × Fin 9)}
    {best : Option (Fin 9 × Fin 9)} (h : scanCells g l best = .moved g1) :
    ∃ (r c : Fin 9) (n : Fin 10), (r, c) ∈ l ∧ (g.cell r c).val = 0 ∧
      countPossibilities g r c = 1 ∧
      searchFrom (g.cell r c).possible 10 1 = some n ∧ g1 = insertValue g n r c := by
  have := scanCells_spec g l best
  rw [h] at this
  exact this

theorem scan_fixed {g : Grid} {l : List (Fin 9 × Fin 9)}
    {best b : Option (Fin 9 × Fin 9)} (h : scanCells g l best = .fixed b) :
    (∀ p ∈ l, (g.cell p.1 p.2).val = 0 → 2 ≤ countPossibilities g p.1 p.2) ∧
    (b = none → best = none ∧ ∀ p ∈ l, (g.cell p.1 p.2).val ≠ 0) ∧
    (∀ q, b = some q → best = some q ∨ (q ∈ l ∧ (g.cell q.1 q.2).val = 0)) := by
  have := scanCells_spec g l best
  rw [h] at this
  exact this

theorem scan_ne_outOfBounds (g : Grid) (l : List (Fin 9 × Fin 9))
    (best : Option (Fin 9 × Fin 9)) : scanCells g l best ≠ .outOfBounds := by
  intro h
  have := scanCells_spec g l best
  rw [h] at this
  exact this

/-! ## Commits and the number of unassigned cells -/

theorem mem_allCells (p : Fin 9 × Fin 9) : p ∈ allCells := by
  unfold allCells
  rw [List.mem_flatMap]
  exact ⟨p.1, mem_idx9 p.1, List.mem_map.2 ⟨p.2, mem_idx9 p.2, rfl⟩⟩

theorem nodup_allCells : allCells.Nodup := by decide

theorem unassigned_le (g : Grid) : unassigned g ≤ 81 := by
  unfold unassigned
  exact List.countP_le_length _

theorem countP_lt_of {α : Type} (P Q : α → Bool) (l : List α)
    (himp : ∀ x ∈ l, P x = true → Q x = true) (x : α) (hx : x ∈ l)
    (hq : Q x = true) (hp : P x = false) : l.countP P < l.countP Q := by
  induction l with
  | nil => cases hx
  | cons y ys ih =>
    have hle : ys.countP P ≤ ys.countP Q :=
      List.countP_mono_left fun z hz => himp z (List.mem_cons_of_mem _ hz)
    rcases List.mem_cons.1 hx with rfl | hx1
    · rw [List.countP_cons_of_pos _ _ hq, List.countP_cons_of_neg _ _ (by simp [hp])]
      omega
    · have := ih (fun z hz => himp z (List.mem_cons_of_mem _ hz)) hx1
      by_cases hpy : P y = true
      · rw [List.countP_cons_of_pos _ _ hpy,
          List.countP_cons_of_pos _ _ (himp y (List.mem_cons_self _ _) hpy)]
        omega
      · rw [List.countP_cons_of_neg _ _ hpy]
        by_cases hqy : Q y = true
        · rw [List.countP_cons_of_pos _ _ hqy]
          omega
        · rw [List.countP_cons_of_neg _ _ hqy]
          exact this

theorem unassigned_insertValue (g : Grid) (n : Fin 10) (r c : Fin 9)
    (hv : (g.cell r c).val = 0) (hn : 1 ≤ n.val) :
    unassigned (insertValue g n r c) < unassigned g := by
  unfold unassigned
  apply countP_lt_of _ _ allCells _ (r, c) (mem_allCells _)
  · simpa using hv
  · rw [val_insertValue]
    simp only [and_self, if_true]
    simp only [decide_eq_false_iff_not]
    omega
  · intro x _ hx
    rw [val_insertValue] at hx
    by_cases hxe : x.1 = r ∧ x.2 = c
    · rw [hxe.1, hxe.2]
      simpa using hv
    · rw [if_neg hxe] at hx
      exact hx

theorem Forced.legal {g g1 : Grid} (h : Forced g g1) : Legal g g1 := by
  obtain ⟨r, c, n, hv, hc, hs, rfl⟩ := h
  have hc1 : 1 ≤ candCount (g.cell r c).possible 1 := by
    have := countCell_eq (g.cell r c)
    unfold countPossibilities at hc
    omega
  obtain ⟨m, hm, h1, h2, _⟩ := searchFrom_spec (g.cell r c).possible 10 1 (by omega) hc1
  rw [hs] at hm
  have : n = m := Option.some.inj hm
  subst this
  exact ⟨r, c, n, hv, h1, h2, rfl⟩

theorem ForcedReach.reach {g g1 : Grid} (h : ForcedReach g g1) : Reach g g1 :=
  Relation.ReflTransGen.mono (fun _ _ h => Forced.legal h) h

theorem Legal.unassigned_lt {g g1 : Grid} (h : Legal g g1) : unassigned g1 < unassigned g := by
  obtain ⟨r, c, n, hv, hn, _, rfl⟩ := h
  exact unassigned_insertValue g n r c hv hn

theorem Reach.unassigned_mono {g g1 : Grid} (h : Reach g g1) : unassigned g1 ≤ unassigned g := by
  induction h with
  | refl => exact le_refl _
  | tail _ h2 ih => exact le_trans (le_of_lt h2.unassigned_lt) ih

/-- Invariants of legal commits are invariants of reachability. -/
theorem Reach.preserves {I : Grid → Prop} (hI : ∀ g g1, I g → Legal g g1 → I g1)
    {g g1 : Grid} (h : Reach g g1) (h0 : I g) : I g1 := by
  induction h with
  | refl => exact h0
  | tail _ h2 ih => exact hI _ _ ih h2

/-! ## The propagation loop -/

theorem propagate_spec (k : Nat) :
    ∀ g : Grid,
      match propagate k g with
      | .contradiction g1 =>
          ForcedReach g g1 ∧
            ∃ p : Fin 9 × Fin 9, (g1.cell p.1 p.2).val = 0 ∧ countPossibilities g1 p.1 p.2 = 0
      | .fixed g1 b => ForcedReach g g1 ∧ scanCells g1 allCells none = .fixed b
      | .outOfBounds => False
      | .outOfFuel => k ≤ unassigned g := by
  induction k with
  | zero =>
    intro g
    simp [propagate]
  | succ k ih =>
    intro g
    rw [propagate]
    cases hs : scanCells g allCells none with
    | contradiction =>
      obtain ⟨p, _, hp⟩ := scan_contradiction hs
      exact ⟨Relation.ReflTransGen.refl, p, hp⟩
    | moved g1 =>
      obtain ⟨r, c, n, _, hv, hc, hn, hg⟩ := scan_moved hs
      have hf : Forced g g1 := ⟨r, c, n, hv, hc, hn, hg⟩
      have := ih g1
      revert this
      simp only
      cases propagate k g1 with
      | contradiction g2 =>
        rintro ⟨h1, h2⟩
        exact ⟨Relation.ReflTransGen.head hf h1, h2⟩
      | fixed g2 b =>
        rintro ⟨h1, h2⟩
        exact ⟨Relation.ReflTransGen.head hf h1, h2⟩
      | outOfBounds => exact id
      | outOfFuel =>
        intro h
        have := hf.legal.unassigned_lt
        simp only
        omega
    | fixed b => exact ⟨Relation.ReflTransGen.refl, hs⟩
    | outOfBounds => exact absurd hs (scan_ne_outOfBounds _ _ _)

theorem propagate_ne_outOfFuel (g : Grid) : propagate 82 g ≠ .outOfFuel := by
  intro h
  have := propagate_spec 82 g
  rw [h] at this
  have := unassigned_le g
  simp only at *
  omega

theorem propagate_ne_outOfBounds (k : Nat) (g : Grid) : propagate k g ≠ .outOfBounds := by
  intro h
  have := propagate_spec k g
  rw [h] at this
  exact this

theorem propagate_fixed {k : Nat} {g g1 : Grid} {b : Option (Fin 9 × Fin 9)}
    (h : propagate k g = .fixed g1 b) :
    ForcedReach g g1 ∧ scanCells g1 allCells none = .fixed b := by
  have := propagate_spec k g
  rw [h] at this
  exact this

theorem propagate_contradiction {k : Nat} {g g1 : Grid}
    (h : propagate k g = .contradiction g1) :
    ForcedReach g g1 ∧
      ∃ p : Fin 9 × Fin 9, (g1.cell p.1 p.2).val = 0 ∧ countPossibilities g1 p.1 p.2 = 0 := by
  have := propagate_spec k g
  rw [h] at this
  exact this

/-- At a fixed point of the scan: every unassigned cell has at least two
possibilities; the tracked cell is unset exactly when no cell is unassigned,
and otherwise is an unassigned cell. -/
theorem fixed_facts {g : Grid} {b : Option (Fin 9 × Fin 9)}
    (h : scanCells g allCells none = .fixed b) :
    (∀ r c, (g.cell r c).val = 0 → 2 ≤ countPossibilities g r c) ∧
    (b = none → ∀ r c, (g.cell r c).val ≠ 0) ∧
    (∀ r c, b = some (r, c) → (g.cell r c).val = 0) := by
  obtain ⟨h1, h2, h3⟩ := scan_fixed h
  refine ⟨fun r c hv => h1 (r, c) (mem_allCells _) hv,
    fun hb r c => (h2 hb).2 (r, c) (mem_allCells _), ?_⟩
  intro r c hb
  rcases h3 (r, c) hb with h | ⟨_, h⟩
  · cases h
  · exact h

/-! ## The trial loop -/

theorem branch_spec (solve : Grid → Outcome) (g : Grid) (rm cm : Fin 9) (k : Nat) :
    ∀ n, 1 ≤ n → candCount (g.cell rm cm).possible n = k →
      match branch solve g rm cm k n with
      | .returned true g1 =>
          ∃ m : Fin 10, n ≤ m.val ∧ (g.cell rm cm).possible.get m = true ∧
            solve (insertValue g m rm cm) = .returned true g1 ∧
            ∀ j : Fin 10, n ≤ j.val → j.val < m.val → (g.cell rm cm).possible.get j = true →
              ∃ g2, solve (insertValue g j rm cm) = .returned false g2
      | .returned false g1 =>
          g1 = g ∧ ∀ j : Fin 10, n ≤ j.val → (g.cell rm cm).possible.get j = true →
            ∃ g2, solve (insertValue g j rm cm) = .returned false g2
      | .outOfBounds =>
          ∃ m : Fin 10, n ≤ m.val ∧ (g.cell rm cm).possible.get m = true ∧
            solve (insertValue g m rm cm) = .outOfBounds
      | .outOfFuel =>
          ∃ m : Fin 10, n ≤ m.val ∧ (g.cell rm cm).possible.get m = true ∧
            solve (insertValue g m rm cm) = .outOfFuel := by
  induction k with
  | zero =>
    intro n _ hc
    rw [branch]
    refine ⟨rfl, ?_⟩
    intro j hj hp
    have := candCount_pos_of _ j n hp hj
    omega
  | succ k ih =>
    intro n hn hc
    obtain ⟨m, h1, h2, h3, h4, h5⟩ :=
      searchFrom_spec (g.cell rm cm).possible 10 n (by omega) (by omega)
    rw [branch, h1]
    simp only
    cases hsol : solve (insertValue g m rm cm) with
    | returned b g1 =>
      cases b with
      | true =>
        refine ⟨m, h2, h3, hsol, ?_⟩
        intro j hj1 hj2 hj3
        rw [h4 j hj1 hj2] at hj3
        exact Bool.noConfusion hj3
      | false =>
        have hrec := ih (m.val + 1) (by omega) (by omega)
        revert hrec
        simp only
        have hlow : ∀ j : Fin 10, n ≤ j.val → j.val < m.val + 1 →
            (g.cell rm cm).possible.get j = true →
            ∃ g2, solve (insertValue g j rm cm) = .returned false g2 := by
          intro j hj1 hj2 hj3
          by_cases hjm : j.val < m.val
          · rw [h4 j hj1 hjm] at hj3
            exact Bool.noConfusion hj3
          · have : j = m := Fin.ext (by omega)
            rw [this]
            exact ⟨g1, hsol⟩
        cases branch solve g rm cm k (m.val + 1) with
        | returned b2 g2 =>
          cases b2 with
          | true =>
            rintro ⟨m2, hm1, hm2, hm3, hm4⟩
            refine ⟨m2, by omega, hm2, hm3, ?_⟩
            intro j hj1 hj2 hj3
            by_cases hjm : j.val < m.val + 1
            · exact hlow j hj1 hjm hj3
            · exact hm4 j (by omega) hj2 hj3
          | false =>
            rintro ⟨hg, hm4⟩
            refine ⟨hg, ?_⟩
            intro j hj1 hj3
            by_cases hjm : j.val < m.val + 1
            · exact hlow j hj1 hjm hj3
            · exact hm4 j (by omega) hj3
        | outOfBounds =>
          rintro ⟨m2, hm1, hm2, hm3⟩
          exact ⟨m2, by omega, hm2, hm3⟩
        | outOfFuel =>
          rintro ⟨m2, hm1, hm2, hm3⟩
          exact ⟨m2, by omega, hm2, hm3⟩
    | outOfBounds => exact ⟨m, h2, h3, hsol⟩
    | outOfFuel => exact ⟨m, h2, h3, hsol⟩

/-! ## The solver: what each outcome means -/

theorem solveSudoku_succ (fuel : Nat) (grid : Grid) :
    solveSudoku (fuel + 1) grid =
      match propagate 82 grid with
      | .contradiction g => .returned false g
      | .outOfBounds => .outOfBounds
      | .outOfFuel => .outOfFuel
      | .fixed g best =>
        match isSudokuComplete g with
        | none => .outOfBounds
        | some true => .returned true g
        | some false =>
          match best with
          | none => .outOfBounds
          | some (rMinPoss, cMinPoss) =>
            branch (solveSudoku fuel) g rMinPoss cMinPoss
              (countPossibilities g rMinPoss cMinPoss) 1 := rfl

theorem solve_spec (fuel : Nat) :
    ∀ g : Grid,
      match solveSudoku fuel g with
      | .returned true g1 => Reach g g1 ∧ isSudokuComplete g1 = some true
      | .returned false g1 => Reach g g1
      | .outOfBounds =>
          ∃ g1, Reach g g1 ∧ (isSudokuComplete g1 = none ∨
            (isSudokuComplete g1 = some false ∧ ∀ r c, (g1.cell r c).val ≠ 0))
      | .outOfFuel => fuel ≤ unassigned g := by
  induction fuel with
  | zero =>
    intro g
    simp [solveSudoku]
  | succ fuel ih =>
    intro g
    rw [solveSudoku_succ]
    cases hp : propagate 82 g with
    | contradiction g1 => exact (propagate_contradiction hp).1.reach
    | outOfBounds => exact absurd hp (propagate_ne_outOfBounds _ _)
    | outOfFuel => exact absurd hp (propagate_ne_outOfFuel _)
    | fixed g1 best =>
      obtain ⟨hreach, hscan⟩ := propagate_fixed hp
      have hr1 : Reach g g1 := hreach.reach
      obtain ⟨_, hnone, hsome⟩ := fixed_facts hscan
      simp only
      cases hc : isSudokuComplete g1 with
      | none => exact ⟨g1, hr1, Or.inl hc⟩
      | some b =>
        cases b with
        | true => exact ⟨hr1, hc⟩
        | false =>
          cases hb : best with
          | none => exact ⟨g1, hr1, Or.inr ⟨hc, hnone hb⟩⟩
          | some q =>
            obtain ⟨rm, cm⟩ := q
            have hv : (g1.cell rm cm).val = 0 := hsome rm cm hb
            have hleg : ∀ m : Fin 10, 1 ≤ m.val → (g1.cell rm cm).possible.get m = true →
                Legal g1 (insertValue g1 m rm cm) :=
              fun m h1 h2 => ⟨rm, cm, m, hv, h1, h2, rfl⟩
            have hbr := branch_spec (solveSudoku fuel) g1 rm cm
              (countPossibilities g1 rm cm) 1 (le_refl _) (countCell_eq _).symm
            revert hbr
            simp only
            cases branch (solveSudoku fuel) g1 rm cm (countPossibilities g1 rm cm) 1 with
            | returned b2 g2 =>
              cases b2 with
              | true =>
                rintro ⟨m, h1, h2, h3, _⟩
                have := ih (insertValue g1 m rm cm)
                rw [h3] at this
                exact ⟨hr1.trans (Relation.ReflTransGen.head (hleg m h1 h2) this.1), this.2⟩
              | false =>
                rintro ⟨hg, _⟩
                rw [hg]
                exact hr1
            | outOfBounds =>
              rintro ⟨m, h1, h2, h3⟩
              have := ih (insertValue g1 m rm cm)
              rw [h3] at this
              obtain ⟨g2, hg2, hh⟩ := this
              exact ⟨g2, hr1.trans (Relation.ReflTransGen.head (hleg m h1 h2) hg2), hh⟩
            | outOfFuel =>
              rintro ⟨m, h1, h2, h3⟩
              have := ih (insertValue g1 m rm cm)
              rw [h3] at this
              have h4 := (hleg m h1 h2).unassigned_lt
              have h5 := hr1.unassigned_mono
              simp only at this ⊢
              omega

theorem solve_true {fuel : Nat} {g g1 : Grid} (h : solveSudoku fuel g = .returned true g1) :
    Reach g g1 ∧ isSudokuComplete g1 = some true := by
  have := solve_spec fuel g
  rw [h] at this
  exact this

theorem solve_false {fuel : Nat} {g g1 : Grid} (h : solveSudoku fuel g = .returned false g1) :
    Reach g g1 := by
  have := solve_spec fuel g
  rw [h] at this
  exact this

theorem solve_outOfBounds {fuel : Nat} {g : Grid} (h : solveSudoku fuel g = .outOfBounds) :
    ∃ g1, Reach g g1 ∧ (isSudokuComplete g1 = none ∨
      (isSudokuComplete g1 = some false ∧ ∀ r c, (g1.cell r c).val ≠ 0)) := by
  have := solve_spec fuel g
  rw [h] at this
  exact this

theorem solve_ne_outOfFuel {fuel : Nat} {g : Grid} (h : unassigned g < fuel) :
    solveSudoku fuel g ≠ .outOfFuel := by
  intro he
  have := solve_spec fuel g
  rw [he] at this
  simp only at this
  omega

/-! ## The terminal check, group by group -/

theorem resetOcc_apply (occ : Occ) (m : Fin 10) :
    resetOcc occ m = if 1 ≤ m.val then 0 else occ m := by
  unfold resetOcc
  simp only [digits, List.foldl_cons, List.foldl_nil]
  revert m
  intro m
  fin_cases m <;> simp

theorem bumpOcc_some {occ occ1 : Occ} {v : Int} (h : bumpOcc occ v = some occ1) :
    (0 ≤ v ∧ v < 10) ∧ ∀ m : Fin 10, occ1 m = occ m + (if v = (m.val : Int) then 1 else 0) := by
  unfold bumpOcc at h
  by_cases hv : 0 ≤ v ∧ v < 10
  · rw [if_pos hv] at h
    refine ⟨hv, ?_⟩
    intro m
    rw [← Option.some.inj h]
    show (if (m.val : Int) = v then occ m + 1 else occ m) = _
    by_cases hm : (m.val : Int) = v
    · rw [if_pos hm, if_pos hm.symm]
    · rw [if_neg hm, if_neg (fun e => hm e.symm)]
      rfl
  · rw [if_neg hv] at h
    cases h

theorem countGroup_some (g : Grid) (l : List (Fin 9 × Fin 9)) :
    ∀ occ occ1 : Occ, countGroup g l occ = some occ1 →
      (∀ p ∈ l, 0 ≤ (g.cell p.1 p.2).val ∧ (g.cell p.1 p.2).val < 10) ∧
      ∀ m : Fin 10, occ1 m
        = occ m + l.countP (fun p => decide ((g.cell p.1 p.2).val = (m.val : Int))) := by
  induction l with
  | nil =>
    intro occ occ1 h
    rw [countGroup] at h
    rw [← Option.some.inj h]
    simp
  | cons x xs ih =>
    intro occ occ1 h
    rw [countGroup] at h
    cases hb : bumpOcc occ (g.cell x.1 x.2).val with
    | none =>
      rw [hb] at h
      cases h
    | some occ2 =>
      rw [hb] at h
      simp only at h
      obtain ⟨hr, hocc2⟩ := bumpOcc_some hb
      obtain ⟨hrs, hocc1⟩ := ih occ2 occ1 h
      refine ⟨?_, ?_⟩
      · intro p hp
        rcases List.mem_cons.1 hp with rfl | hp
        · exact hr
        · exact hrs p hp
      · intro m
        rw [hocc1 m, hocc2 m, List.countP_cons]
        by_cases hm : (g.cell x.1 x.2).val = (m.val : Int)
        · simp [hm]
          omega
        · simp [hm]

theorem countGroup_isSome (g : Grid) (l : List (Fin 9 × Fin 9)) :
    ∀ occ : Occ, (∀ p ∈ l, 0 ≤ (g.cell p.1 p.2).val ∧ (g.cell p.1 p.2).val < 10) →
      ∃ occ1, countGroup g l occ = some occ1 := by
  induction l with
  | nil =>
    intro occ _
    exact ⟨occ, rfl⟩
  | cons x xs ih =>
    intro occ h
    rw [countGroup]
    have hx := h x (List.mem_cons_self _ _)
    have hb : bumpOcc occ (g.cell x.1 x.2).val
        = some fun m => if (m.val : Int) = (g.cell x.1 x.2).val then occ m + 1 else occ m := by
      unfold bumpOcc
      rw [if_pos hx]
    rw [hb]
    exact ih _ fun p hp => h p (List.mem_cons_of_mem _ hp)

theorem occOk_iff (occ : Occ) : occOk occ = true ↔ ∀ m : Fin 10, 1 ≤ m.val → occ m = 1 := by
  unfold occOk
  rw [List.all_eq_true]
  constructor
  · intro h m hm
    simpa using h m ((mem_digits m).2 hm)
  · intro h m hm
    simpa using h m ((mem_digits m).1 hm)

/-- One iteration of an outer loop of `isSudokuComplete`: the counting goes
through and the check passes exactly when the group is in order. -/
theorem group_pass (g : Grid) (grp : List (Fin 9 × Fin 9)) (occ : Occ) :
    (∃ occ1, countGroup g grp (resetOcc occ) = some occ1 ∧ occOk occ1 = true)
      ↔ GroupOk g grp := by
  constructor
  · rintro ⟨occ1, h1, h2⟩
    obtain ⟨hr, hocc⟩ := countGroup_some g grp _ _ h1
    refine ⟨hr, ?_⟩
    intro m hm
    have := (occOk_iff occ1).1 h2 m hm
    rw [hocc m, resetOcc_apply, if_pos hm] at this
    omega
  · rintro ⟨hr, hc⟩
    obtain ⟨occ1, h1⟩ := countGroup_isSome g grp (resetOcc occ) hr
    refine ⟨occ1, h1, ?_⟩
    obtain ⟨_, hocc⟩ := countGroup_some g grp _ _ h1
    rw [occOk_iff]
    intro m hm
    rw [hocc m, resetOcc_apply, if_pos hm, hc m hm]

theorem checkGroups_true (g : Grid) (gs : List (List (Fin 9 × Fin 9))) :
    ∀ occ : Occ, checkGroups g gs occ = some true ↔ ∀ grp ∈ gs, GroupOk g grp := by
  induction gs with
  | nil =>
    intro occ
    simp [checkGroups]
  | cons grp rest ih =>
    intro occ
    rw [checkGroups]
    cases hc : countGroup g grp (resetOcc occ) with
    | none =>
      simp only
      constructor
      · intro h
        cases h
      · intro h
        obtain ⟨occ1, h1, _⟩ := (group_pass g grp occ).2 (h grp (List.mem_cons_self _ _))
        rw [hc] at h1
        cases h1
    | some occ1 =>
      simp only
      by_cases hok : occOk occ1 = true
      · rw [if_pos hok, ih occ1]
        have hg : GroupOk g grp := (group_pass g grp occ).1 ⟨occ1, hc, hok⟩
        constructor
        · intro h x hx
          rcases List.mem_cons.1 hx with rfl | hx
          · exact hg
          · exact h x hx
        · intro h x hx
          exact h x (List.mem_cons_of_mem _ hx)
      · rw [if_neg hok]
        constructor
        · intro h
          cases h
        · intro h
          obtain ⟨occ2, h1, h2⟩ := (group_pass g grp occ).2 (h grp (List.mem_cons_self _ _))
          rw [hc] at h1
          rw [← Option.some.inj h1] at h2
          exact absurd h2 hok

theorem checkGroups_ne_none (g : Grid) (gs : List (List (Fin 9 × Fin 9))) :
    ∀ occ : Occ, (∀ grp ∈ gs, ∀ p ∈ grp, 0 ≤ (g.cell p.1 p.2).val ∧ (g.cell p.1 p.2).val < 10) →
      checkGroups g gs occ ≠ none := by
  induction gs with
  | nil =>
    intro occ _
    simp [checkGroups]
  | cons grp rest ih =>
    intro occ h
    rw [checkGroups]
    obtain ⟨occ1, h1⟩ := countGroup_isSome g grp (resetOcc occ) (h grp (List.mem_cons_self _ _))
    rw [h1]
    simp only
    by_cases hok : occOk occ1 = true
    · rw [if_pos hok]
      exact ih occ1 fun x hx => h x (List.mem_cons_of_mem _ hx)
    · rw [if_neg hok]
      simp

theorem isSudokuComplete_true_iff (g : Grid) :
    isSudokuComplete g = some true ↔ ∀ grp ∈ allGroups, GroupOk g grp :=
  checkGroups_true g allGroups _

theorem isSudokuComplete_ne_none {g : Grid} (h : InRange g) : isSudokuComplete g ≠ none := by
  apply checkGroups_ne_none
  intro grp _ p _
  have := h p.1 p.2
  omega

/-! ## The terminal check against the reference notion -/

theorem countP_eq_one_iff {α : Type} (Q : α → Bool) (l : List α) (hnd : l.Nodup) :
    l.countP Q = 1 ↔ ∃ x ∈ l, Q x = true ∧ ∀ y ∈ l, Q y = true → y = x := by
  induction l with
  | nil => simp
  | cons a as ih =>
    have hna : a ∉ as := (List.nodup_cons.1 hnd).1
    have ih1 := ih (List.nodup_cons.1 hnd).2
    rw [List.countP_cons]
    by_cases ha : Q a = true
    · rw [if_pos ha]
      constructor
      · intro h
        have h0 : as.countP Q = 0 := by omega
        rw [List.countP_eq_zero] at h0
        refine ⟨a, List.mem_cons_self _ _, ha, ?_⟩
        intro y hy hqy
        rcases List.mem_cons.1 hy with rfl | hy
        · rfl
        · exact absurd hqy (h0 y hy)
      · rintro ⟨x, _, _, hx⟩
        have hax : a = x := hx a (List.mem_cons_self _ _) ha
        have h0 : as.countP Q = 0 := by
          rw [List.countP_eq_zero]
          intro y hy hqy
          have : y = x := hx y (List.mem_cons_of_mem _ hy) hqy
          rw [this, ← hax] at hy
          exact hna hy
        omega
    · rw [if_neg ha, Nat.add_zero, ih1]
      constructor
      · rintro ⟨x, hx1, hx2, hx3⟩
        refine ⟨x, List.mem_cons_of_mem _ hx1, hx2, ?_⟩
        intro y hy hqy
        rcases List.mem_cons.1 hy with rfl | hy
        · exact absurd hqy ha
        · exact hx3 y hy hqy
      · rintro ⟨x, hx1, hx2, hx3⟩
        rcases List.mem_cons.1 hx1 with rfl | hx1
        · exact absurd hx2 ha
        · exact ⟨x, hx1, hx2, fun y hy => hx3 y (List.mem_cons_of_mem _ hy)⟩

theorem nodup_idx9 : idx9.Nodup := by decide

theorem countP_idx9 (Q : Fin 9 → Bool) : idx9.countP Q = 1 ↔ ∃! i, Q i = true := by
  rw [countP_eq_one_iff Q idx9 nodup_idx9]
  constructor
  · rintro ⟨x, _, h1, h2⟩
    exact ⟨x, h1, fun y hy => h2 y (mem_idx9 y) hy⟩
  · rintro ⟨x, h1, h2⟩
    exact ⟨x, mem_idx9 x, h1, fun y _ hy => h2 y hy⟩

/-- A group given by its nine positions passes the counting loops exactly
when its values are indices of `occurrences` and each of 1..9 is the value of
exactly one of the nine positions. -/
theorem groupOk_map (g : Grid) (f : Fin 9 → Fin 9 × Fin 9) :
    GroupOk g (idx9.map f) ↔
      (∀ i, 0 ≤ (g.cell (f i).1 (f i).2).val ∧ (g.cell (f i).1 (f i).2).val < 10) ∧
      ∀ n : Int, 1 ≤ n → n ≤ 9 → ∃! i, (g.cell (f i).1 (f i).2).val = n := by
  unfold GroupOk
  constructor
  · rintro ⟨h1, h2⟩
    refine ⟨fun i => h1 (f i) (List.mem_map.2 ⟨i, mem_idx9 i, rfl⟩), ?_⟩
    intro n hn1 hn2
    have hm := h2 ⟨n.toNat, by omega⟩ (by simp only; omega)
    rw [List.countP_map, countP_idx9] at hm
    have e : ((n.toNat : Nat) : Int) = n := by omega
    simpa [e] using hm
  · rintro ⟨h1, h2⟩
    refine ⟨?_, ?_⟩
    · intro p hp
      obtain ⟨i, _, rfl⟩ := List.mem_map.1 hp
      exact h1 i
    · intro m hm
      rw [List.countP_map, countP_idx9]
      have := h2 (m.val : Int) (by omega) (by omega)
      simpa using this

theorem mem_allGroups (grp : List (Fin 9 × Fin 9)) :
    grp ∈ allGroups ↔
      (∃ r, grp = rowCells r) ∨ (∃ c, grp = colCells c) ∨ (∃ sq, grp = blockCells sq) := by
  unfold allGroups
  rw [List.mem_append, List.mem_append, or_assoc]
  simp only [List.mem_map, mem_idx9, true_and, eq_comm]

/-- Position of a cell inside its 3×3 arrangement: `x ↦ (x / 3, x % 3)`. -/
theorem divMod_bijective :
    Function.Bijective (fun x : Fin 9 =>
      ((⟨x.val / 3, by omega⟩ : Fin 3), (⟨x.val % 3, by omega⟩ : Fin 3))) := by
  decide

theorem blocks_iff (t : Fin 9 → Fin 9 → Int) (n : Int) :
    (∀ sq : Fin 9, ∃! pos : Fin 9,
        t ⟨3 * (sq.val / 3) + pos.val / 3, by omega⟩
          ⟨3 * (sq.val % 3) + pos.val % 3, by omega⟩ = n)
      ↔ ∀ i j : Fin 3, ∃! ab : Fin 3 × Fin 3, t (blockPos i ab.1) (blockPos j ab.2) = n := by
  constructor
  · intro h i j
    obtain ⟨sq, hsq⟩ := divMod_bijective.2 (i, j)
    have := h sq
    rw [divMod_bijective.existsUnique_iff]
    have hi : i = ⟨sq.val / 3, by omega⟩ := (congrArg Prod.fst hsq).symm
    have hj : j = ⟨sq.val % 3, by omega⟩ := (congrArg Prod.snd hsq).symm
    rw [hi, hj]
    exact this
  · intro h sq
    have := h ⟨sq.val / 3, by omega⟩ ⟨sq.val % 3, by omega⟩
    rw [divMod_bijective.existsUnique_iff] at this
    exact this

theorem isSudokuComplete_spec (g : Grid) :
    isSudokuComplete g = some true ↔ InRange g ∧ SpecValid g := by
  rw [isSudokuComplete_true_iff]
  constructor
  · intro h
    have hrow : ∀ r, GroupOk g (rowCells r) := fun r => h _ ((mem_allGroups _).2 (Or.inl ⟨r, rfl⟩))
    have hcol : ∀ c, GroupOk g (colCells c) :=
      fun c => h _ ((mem_allGroups _).2 (Or.inr (Or.inl ⟨c, rfl⟩)))
    have hblk : ∀ sq, GroupOk g (blockCells sq) :=
      fun sq => h _ ((mem_allGroups _).2 (Or.inr (Or.inr ⟨sq, rfl⟩)))
    refine ⟨?_, ?_⟩
    · intro r c
      have := ((groupOk_map g _).1 (hrow r)).1 c
      simp only at this
      omega
    · intro n hn1 hn2
      refine ⟨?_, ?_, ?_⟩
      · intro r
        exact ((groupOk_map g _).1 (hrow r)).2 n hn1 hn2
      · intro c
        exact ((groupOk_map g _).1 (hcol c)).2 n hn1 hn2
      · rw [← blocks_iff]
        intro sq
        exact ((groupOk_map g _).1 (hblk sq)).2 n hn1 hn2
  · rintro ⟨hr, hv⟩ grp hgrp
    have hr1 : ∀ p : Fin 9 × Fin 9, 0 ≤ (g.cell p.1 p.2).val ∧ (g.cell p.1 p.2).val < 10 := by
      intro p
      have := hr p.1 p.2
      omega
    rcases (mem_allGroups grp).1 hgrp with ⟨r, rfl⟩ | ⟨c, rfl⟩ | ⟨sq, rfl⟩
    · exact (groupOk_map g _).2 ⟨fun i => hr1 _, fun n h1 h2 => (hv n h1 h2).1 r⟩
    · exact (groupOk_map g _).2 ⟨fun i => hr1 _, fun n h1 h2 => (hv n h1 h2).2.1 c⟩
    · refine (groupOk_map g _).2 ⟨fun i => hr1 _, fun n h1 h2 => ?_⟩
      exact (blocks_iff g.vals n).2 (hv n h1 h2).2.2 sq

/-! ## Valid tables -/

theorem sameUnit_symm {row col r c : Fin 9} (h : sameUnit row col r c) :
    sameUnit r c row col := by
  unfold sameUnit at *
  rcases h with h | h | ⟨h1, h2⟩
  · exact Or.inl h.symm
  · exact Or.inr (Or.inl h.symm)
  · exact Or.inr (Or.inr ⟨h1.symm, h2.symm⟩)

theorem blockPos_divMod (x : Fin 9) :
    blockPos ⟨x.val / 3, by omega⟩ ⟨x.val % 3, by omega⟩ = x := by
  apply Fin.ext
  simp only [blockPos]
  omega

/-- In a valid table every value is one of 1..9. -/
theorem ValidTable.pos {t : Fin 9 → Fin 9 → Int} (h : ValidTable t) (r c : Fin 9) :
    1 ≤ t r c ∧ t r c ≤ 9 := by
  have hex : ∀ n : Fin 9, ∃ c1, t r c1 = (n.val : Int) + 1 :=
    fun n => ((h _ (by omega) (by omega)).1 r).exists
  choose f hf using hex
  have hinj : Function.Injective f := by
    intro a b hab
    have h1 := hf a
    rw [hab, hf b] at h1
    exact Fin.ext (by omega)
  obtain ⟨n, hn⟩ := (Finite.injective_iff_surjective.1 hinj) c
  rw [← hn, hf n]
  omega

/-- In a valid table two distinct cells of one row, column or square hold
different values. -/
theorem ValidTable.distinct {t : Fin 9 → Fin 9 → Int} (h : ValidTable t)
    {row col r c : Fin 9} (hu : sameUnit row col r c) (hne : (r, c) ≠ (row, col)) :
    t r c ≠ t row col := by
  intro heq
  obtain ⟨h1, h2⟩ := h.pos row col
  obtain ⟨hrow, hcol, hblk⟩ := h (t row col) h1 h2
  apply hne
  rcases hu with hu | hu | ⟨hu1, hu2⟩
  · subst hu
    have := (hcol c).unique heq rfl
    rw [this]
  · subst hu
    have := (hrow r).unique heq rfl
    rw [this]
  · have e1 : blockPos ⟨row.val / 3, by omega⟩ ⟨r.val % 3, by omega⟩ = r := by
      apply Fin.ext
      simp only [blockPos]
      omega
    have e2 : blockPos ⟨col.val / 3, by omega⟩ ⟨c.val % 3, by omega⟩ = c := by
      apply Fin.ext
      simp only [blockPos]
      omega
    have key := @ExistsUnique.unique _ _
      (hblk ⟨row.val / 3, by omega⟩ ⟨col.val / 3, by omega⟩)
      (⟨r.val % 3, by omega⟩, ⟨c.val % 3, by omega⟩)
      (⟨row.val % 3, by omega⟩, ⟨col.val % 3, by omega⟩)
      (by simp only [e1, e2]; exact heq) (by simp only [blockPos_divMod])
    have k1 := congrArg (fun p : Fin 3 × Fin 3 => p.1.val) key
    have k2 := congrArg (fun p : Fin 3 × Fin 3 => p.2.val) key
    simp only at k1 k2
    have er : r = row := Fin.ext (by omega)
    have ec : c = col := Fin.ext (by omega)
    rw [er, ec]

/-- Nine values in 1..9, pairwise different, contain each of 1..9 exactly
once. -/
theorem existsUnique_of_injective {α : Type} [Fintype α] (hcard : Fintype.card α = 9)
    (v : α → Int) (hr : ∀ a, 1 ≤ v a ∧ v a ≤ 9) (hinj : Function.Injective v)
    (n : Int) (hn1 : 1 ≤ n) (hn2 : n ≤ 9) : ∃! a, v a = n := by
  let f : α → Fin 9 := fun a => ⟨(v a).toNat - 1, by have := hr a; omega⟩
  have hf : Function.Injective f := by
    intro a b hab
    apply hinj
    have := congrArg Fin.val hab
    simp only [f] at this
    have := hr a
    have := hr b
    omega
  have hb : Function.Bijective f :=
    (Fintype.bijective_iff_injective_and_card f).2 ⟨hf, by rw [hcard]; simp⟩
  obtain ⟨a, ha⟩ := hb.2 ⟨n.toNat - 1, by omega⟩
  refine ⟨a, ?_, ?_⟩
  · have := congrArg Fin.val ha
    simp only [f] at this
    have := hr a
    omega
  · intro b hb1
    apply hinj
    have := congrArg Fin.val ha
    simp only [f] at this
    have := hr a
    omega

/-- A grid without unassigned cells and without clashes is complete and
valid. -/
theorem NoClash.specValid {g : Grid} (h : NoClash (fun _ _ => False) g)
    (hfull : ∀ r c, (g.cell r c).val ≠ 0) : SpecValid g := by
  obtain ⟨hr, hb, _⟩ := h
  have hpos : ∀ r c, 1 ≤ (g.cell r c).val ∧ (g.cell r c).val ≤ 9 := by
    intro r c
    have := hr r c
    have := hfull r c
    omega
  have hd : ∀ r c r1 c1 : Fin 9, sameUnit r c r1 c1 → (g.cell r1 c1).val = (g.cell r c).val →
      (r1, c1) = (r, c) := by
    intro r c r1 c1 hu hv
    by_contra hne
    exact hb r c r1 c1 hu hne (hfull r c) hv
  intro n hn1 hn2
  refine ⟨?_, ?_, ?_⟩
  · intro r
    apply existsUnique_of_injective (by simp) (fun c => g.vals r c) (fun c => hpos r c) _ n hn1 hn2
    intro c c1 hcc
    have := hd r c r c1 (Or.inr (Or.inl rfl)) hcc.symm
    exact (congrArg Prod.snd this).symm
  · intro c
    apply existsUnique_of_injective (by simp) (fun r => g.vals r c) (fun r => hpos r c) _ n hn1 hn2
    intro r r1 hrr
    have := hd r c r1 c (Or.inl rfl) hrr.symm
    exact (congrArg Prod.fst this).symm
  · intro i j
    apply existsUnique_of_injective (by simp)
      (fun ab : Fin 3 × Fin 3 => g.vals (blockPos i ab.1) (blockPos j ab.2))
      (fun ab => hpos _ _) _ n hn1 hn2
    intro ab ab1 hab
    have := hd (blockPos i ab.1) (blockPos j ab.2) (blockPos i ab1.1) (blockPos j ab1.2)
      (Or.inr (Or.inr ⟨by simp only [blockPos]; omega, by simp only [blockPos]; omega⟩)) hab.symm
    have k1 := congrArg (fun p : Fin 9 × Fin 9 => p.1.val) this
    have k2 := congrArg (fun p : Fin 9 × Fin 9 => p.2.val) this
    simp only [blockPos] at k1 k2
    exact Prod.ext (Fin.ext (by omega)) (Fin.ext (by omega))

/-! ## The result does not depend on the recursion bound -/

theorem branch_congr (solve1 solve2 : Grid → Outcome) (g : Grid) (rm cm : Fin 9) (k : Nat) :
    ∀ n, 1 ≤ n → candCount (g.cell rm cm).possible n = k →
      (∀ m : Fin 10, n ≤ m.val → (g.cell rm cm).possible.get m = true →
        solve1 (insertValue g m rm cm) = solve2 (insertValue g m rm cm)) →
      branch solve1 g rm cm k n = branch solve2 g rm cm k n := by
  induction k with
  | zero =>
    intro n _ _ _
    rfl
  | succ k ih =>
    intro n hn hc hsol
    obtain ⟨m, h1, h2, h3, _, h5⟩ :=
      searchFrom_spec (g.cell rm cm).possible 10 n (by omega) (by omega)
    rw [branch, branch, h1]
    simp only
    rw [hsol m h2 h3, ih (m.val + 1) (by omega) (by omega)
      (fun j hj1 hj2 => hsol j (by omega) hj2)]

theorem solveSudoku_fuel (fuel : Nat) :
    ∀ (fuel1 : Nat) (g : Grid), unassigned g < fuel → unassigned g < fuel1 →
      solveSudoku fuel g = solveSudoku fuel1 g := by
  induction fuel with
  | zero =>
    intro fuel1 g h _
    omega
  | succ fuel ih =>
    intro fuel1 g h h1
    cases fuel1 with
    | zero => omega
    | succ fuel1 =>
      rw [solveSudoku_succ, solveSudoku_succ]
      cases hp : propagate 82 g with
      | contradiction g1 => rfl
      | outOfBounds => rfl
      | outOfFuel => rfl
      | fixed g1 best =>
        obtain ⟨hreach, hscan⟩ := propagate_fixed hp
        obtain ⟨_, _, hsome⟩ := fixed_facts hscan
        simp only
        cases isSudokuComplete g1 with
        | none => rfl
        | some b =>
          cases b with
          | true => rfl
          | false =>
            cases hb : best with
            | none => rfl
            | some q =>
              obtain ⟨rm, cm⟩ := q
              simp only
              apply branch_congr _ _ _ _ _ _ _ (le_refl _) (countCell_eq _).symm
              intro m hm1 hm2
              have hlt := unassigned_insertValue g1 m rm cm (hsome rm cm hb) hm1
              have hle := hreach.reach.unassigned_mono
              exact ih fuel1 _ (by omega) (by omega)

/-! ## Grids without unassigned cells -/

theorem scan_full (g : Grid) (l : List (Fin 9 × Fin 9)) (best : Option (Fin 9 × Fin 9))
    (h : ∀ p ∈ l, (g.cell p.1 p.2).val ≠ 0) : scanCells g l best = .fixed best := by
  induction l with
  | nil => rfl
  | cons x xs ih =>
    obtain ⟨r, c⟩ := x
    rw [scanCells, if_neg (h (r, c) (List.mem_cons_self _ _))]
    exact ih fun p hp => h p (List.mem_cons_of_mem _ hp)

theorem propagate_full (g : Grid) (k : Nat) (h : ∀ r c, (g.cell r c).val ≠ 0) :
    propagate (k + 1) g = .fixed g none := by
  rw [propagate, scan_full g allCells none fun p _ => h p.1 p.2]

/-- On a grid without unassigned cells the call ends right after the terminal
check: with true when the check passes, and otherwise in the read of
`grid[-1][-1]` of line 228. -/
theorem solveSudoku_full (g : Grid) (fuel : Nat) (h : ∀ r c, (g.cell r c).val ≠ 0) :
    solveSudoku (fuel + 1) g =
      if isSudokuComplete g = some true then .returned true g else .outOfBounds := by
  rw [solveSudoku_succ, propagate_full g 81 h]
  simp only
  cases isSudokuComplete g with
  | none => simp
  | some b => cases b <;> simp

/-! ## Commits keep a grid free of clashes -/

theorem Legal.noClash_step {E : Fin 9 × Fin 9 → Fin 9 × Fin 9 → Prop} {g g1 : Grid}
    (h : NoClash E g) (hl : Legal g g1) : NoClash E g1 := by
  obtain ⟨r0, c0, n, hv0, hn, hpn, rfl⟩ := hl
  obtain ⟨hr, hb, hc⟩ := h
  have hclash : ∀ r c : Fin 9, sameUnit r c r0 c0 → (g.cell r c).val ≠ (n.val : Int) := by
    intro r c hu hval
    have := hc r c r0 c0 n hu hval hn hv0
    rw [hpn] at this
    exact Bool.noConfusion this
  refine ⟨?_, ?_, ?_⟩
  · intro r c
    rw [val_insertValue]
    by_cases he : r = r0 ∧ c = c0
    · rw [if_pos he]
      have := n.isLt
      omega
    · rw [if_neg he]
      exact hr r c
  · intro r c r1 c1 hu hne hnz heq
    rw [val_insertValue] at hnz heq
    rw [val_insertValue] at heq
    by_cases he : r = r0 ∧ c = c0
    · have he1 : ¬ (r1 = r0 ∧ c1 = c0) := by
        rintro ⟨h1, h2⟩
        apply hne
        rw [h1, h2, he.1, he.2]
      rw [if_pos he, if_neg he1] at heq
      rw [he.1, he.2] at hu
      exact absurd heq (hclash r1 c1 (sameUnit_symm hu))
    · rw [if_neg he] at hnz heq
      by_cases he1 : r1 = r0 ∧ c1 = c0
      · rw [if_pos he1] at heq
        rw [he1.1, he1.2] at hu
        exact absurd heq.symm (hclash r c hu)
      · rw [if_neg he1] at heq
        exact hb r c r1 c1 hu hne hnz heq
  · intro r c r1 c1 m hu hval hm hz
    rw [val_insertValue] at hval hz
    rw [possible_insertValue]
    by_cases he1 : r1 = r0 ∧ c1 = c0
    · rw [if_pos he1] at hz
      omega
    · rw [if_neg he1] at hz
      by_cases he : r = r0 ∧ c = c0
      · rw [if_pos he] at hval
        have hmn : m = n := Fin.ext (by omega)
        rw [he.1, he.2] at hu
        rw [if_pos (Or.inr ⟨hmn, hu⟩)]
      · rw [if_neg he] at hval
        have := hc r c r1 c1 m hu hval hm hz
        rw [this]
        simp

theorem Reach.noClash {E : Fin 9 × Fin 9 → Fin 9 × Fin 9 → Prop} {g g1 : Grid}
    (h : Reach g g1) (h0 : NoClash E g) : NoClash E g1 :=
  Reach.preserves (fun _ _ hI hl => Legal.noClash_step hI hl) h h0

/-- Assigned cells keep their value under commits to unassigned cells. -/
theorem Reach.keeps {g g1 : Grid} (h : Reach g g1) :
    ∀ r c, (g.cell r c).val ≠ 0 → (g1.cell r c).val = (g.cell r c).val := by
  induction h with
  | refl =>
    intro r c _
    rfl
  | tail _ h2 ih =>
    intro r c hnz
    obtain ⟨r0, c0, n, hv0, _, _, rfl⟩ := h2
    rw [val_insertValue]
    have hk := ih r c hnz
    by_cases he : r = r0 ∧ c = c0
    · rw [he.1, he.2] at hk hnz
      rw [hk] at hv0
      exact absurd hv0 hnz
    · rw [if_neg he]
      exact hk

/-- A clash-free grid never makes the solver read outside an array. -/
theorem solve_ne_outOfBounds {g : Grid} (fuel : Nat) (h : NoClash (fun _ _ => False) g) :
    solveSudoku fuel g ≠ .outOfBounds := by
  intro he
  obtain ⟨g1, hreach, hcase⟩ := solve_outOfBounds he
  have h1 : NoClash (fun _ _ => False) g1 := hreach.noClash h
  rcases hcase with hn | ⟨hf, hfull⟩
  · exact isSudokuComplete_ne_none h1.1 hn
  · have := (isSudokuComplete_spec g1).2 ⟨h1.1, h1.specValid hfull⟩
    rw [this] at hf
    cases hf

/-! ## Commits of the values of a solution -/

theorem Compatible.count_pos {S : Fin 9 → Fin 9 → Int} {g : Grid} (h : Compatible S g)
    {r c : Fin 9} (hv : (g.cell r c).val = 0) : 1 ≤ countPossibilities g r c := by
  obtain ⟨m, _, hm1, hm2⟩ := (h r c).2 hv
  unfold countPossibilities
  rw [countCell_eq]
  exact candCount_pos_of _ m 1 hm2 hm1

/-- Committing the value of a valid table to an unassigned cell keeps the
table compatible with the grid. -/
theorem Compatible.insert {S : Fin 9 → Fin 9 → Int} (hS : ValidTable S) {g : Grid}
    (h : Compatible S g) (r0 c0 : Fin 9) (n : Fin 10) (hn : (n.val : Int) = S r0 c0) :
    Compatible S (insertValue g n r0 c0) := by
  intro r c
  rw [val_insertValue]
  by_cases he : r = r0 ∧ c = c0
  · rw [if_pos he, he.1, he.2]
    refine ⟨fun _ => hn, ?_⟩
    intro hz
    have := hS.pos r0 c0
    omega
  · rw [if_neg he]
    refine ⟨(h r c).1, ?_⟩
    intro hz
    obtain ⟨m, hm0, hm1, hm2⟩ := (h r c).2 hz
    refine ⟨m, hm0, hm1, ?_⟩
    rw [possible_insertValue, if_neg, hm2]
    rintro (⟨h1, h2, _⟩ | ⟨h1, h2⟩)
    · exact he ⟨h1, h2⟩
    · have hne : (r, c) ≠ (r0, c0) := by
        intro hp
        exact he ⟨congrArg Prod.fst hp, congrArg Prod.snd hp⟩
      apply hS.distinct h2 hne
      rw [← hm0, ← hn, h1]

theorem Forced.compatible_step {S : Fin 9 → Fin 9 → Int} (hS : ValidTable S) {g g1 : Grid}
    (h : Compatible S g) (hf : Forced g g1) : Compatible S g1 := by
  obtain ⟨r, c, n, hv, hc, hs, rfl⟩ := hf
  obtain ⟨m, hm0, hm1, hm2⟩ := (h r c).2 hv
  have hc1 : candCount (g.cell r c).possible 1 = 1 := by
    rw [← countCell_eq]
    exact hc
  have := searchFrom_unique (g.cell r c).possible 10 1 m (by omega) hc1 hm2 hm1
  rw [hs] at this
  have hnm : n = m := Option.some.inj this
  rw [hnm]
  exact h.insert hS r c m hm0

theorem ForcedReach.compatible {S : Fin 9 → Fin 9 → Int} (hS : ValidTable S) {g g1 : Grid}
    (hr : ForcedReach g g1) (h : Compatible S g) : Compatible S g1 := by
  induction hr with
  | refl => exact h
  | tail _ h2 ih => exact Forced.compatible_step hS ih h2

/-- A grid without unassigned cells that a valid table is compatible with
passes the terminal check. -/
theorem Compatible.complete {S : Fin 9 → Fin 9 → Int} (hS : ValidTable S) {g : Grid}
    (h : Compatible S g) (hfull : ∀ r c, (g.cell r c).val ≠ 0) :
    isSudokuComplete g = some true := by
  have hv : g.vals = S := by
    funext r c
    exact (h r c).1 (hfull r c)
  rw [isSudokuComplete_spec]
  refine ⟨?_, ?_⟩
  · intro r c
    have := hS.pos r c
    have e : (g.cell r c).val = S r c := (h r c).1 (hfull r c)
    omega
  · unfold SpecValid
    rw [hv]
    exact hS

/-! ## Completeness of the search -/

theorem complete_aux {S : Fin 9 → Fin 9 → Int} (hS : ValidTable S) (fuel : Nat) :
    ∀ g : Grid, NoClash (fun _ _ => False) g → Compatible S g → unassigned g < fuel →
      ∃ g1, solveSudoku fuel g = .returned true g1 := by
  induction fuel with
  | zero =>
    intro g _ _ h
    omega
  | succ fuel ih =>
    intro g hnc hcomp hfuel
    rw [solveSudoku_succ]
    cases hp : propagate 82 g with
    | contradiction g1 =>
      obtain ⟨hreach, p, hp1, hp2⟩ := propagate_contradiction hp
      have := (hreach.compatible hS hcomp).count_pos hp1
      omega
    | outOfBounds => exact absurd hp (propagate_ne_outOfBounds _ _)
    | outOfFuel => exact absurd hp (propagate_ne_outOfFuel _)
    | fixed g1 best =>
      obtain ⟨hreach, hscan⟩ := propagate_fixed hp
      obtain ⟨_, hnone, hsome⟩ := fixed_facts hscan
      have hnc1 : NoClash (fun _ _ => False) g1 := hreach.reach.noClash hnc
      have hcomp1 : Compatible S g1 := hreach.compatible hS hcomp
      have hle := hreach.reach.unassigned_mono
      simp only
      cases hc : isSudokuComplete g1 with
      | none => exact absurd hc (isSudokuComplete_ne_none hnc1.1)
      | some b =>
        cases b with
        | true => exact ⟨g1, rfl⟩
        | false =>
          cases hb : best with
          | none =>
            have := hcomp1.complete hS (hnone hb)
            rw [this] at hc
            cases hc
          | some q =>
            obtain ⟨rm, cm⟩ := q
            have hv : (g1.cell rm cm).val = 0 := hsome rm cm hb
            obtain ⟨s, hs0, hs1, hs2⟩ := (hcomp1 rm cm).2 hv
            have hclone : ∀ m : Fin 10, 1 ≤ m.val → (g1.cell rm cm).possible.get m = true →
                NoClash (fun _ _ => False) (insertValue g1 m rm cm) ∧
                unassigned (insertValue g1 m rm cm) < fuel := by
              intro m h1 h2
              have hl : Legal g1 (insertValue g1 m rm cm) := ⟨rm, cm, m, hv, h1, h2, rfl⟩
              have := hl.unassigned_lt
              exact ⟨Legal.noClash_step hnc1 hl, by omega⟩
            obtain ⟨g2, hg2⟩ := ih (insertValue g1 s rm cm) (hclone s hs1 hs2).1
              (hcomp1.insert hS rm cm s hs0) (hclone s hs1 hs2).2
            have hbr := branch_spec (solveSudoku fuel) g1 rm cm
              (countPossibilities g1 rm cm) 1 (le_refl _) (countCell_eq _).symm
            revert hbr
            simp only
            cases branch (solveSudoku fuel) g1 rm cm (countPossibilities g1 rm cm) 1 with
            | returned b2 g3 =>
              cases b2 with
              | true =>
                intro _
                exact ⟨g3, rfl⟩
              | false =>
                rintro ⟨_, hall⟩
                obtain ⟨g4, hg4⟩ := hall s hs1 hs2
                rw [hg2] at hg4
                cases hg4
            | outOfBounds =>
              rintro ⟨m, h1, h2, h3⟩
              exact absurd h3 (solve_ne_outOfBounds fuel (hclone m h1 h2).1)
            | outOfFuel =>
              rintro ⟨m, h1, h2, h3⟩
              exact absurd h3 (solve_ne_outOfFuel (hclone m h1 h2).2)

/-! ## Seeded grids -/

theorem seedCells_nil (givens : Fin 9 → Fin 9 → Option (Fin 10)) (g : Grid) :
    seedCells givens [] g = g := rfl

theorem seedCells_cons (givens : Fin 9 → Fin 9 → Option (Fin 10)) (r c : Fin 9)
    (rest : List (Fin 9 × Fin 9)) (g : Grid) :
    seedCells givens ((r, c) :: rest) g =
      match givens r c with
      | some v => seedCells givens rest (insertValue g v r c)
      | none => seedCells givens rest g := rfl

theorem seedCells_preserves (givens : Fin 9 → Fin 9 → Option (Fin 10)) (I : Grid → Prop)
    (hI : ∀ g r c v, I g → (g.cell r c).val = 0 → givens r c = some v →
      I (insertValue g v r c)) (l : List (Fin 9 × Fin 9)) :
    ∀ g : Grid, l.Nodup → (∀ p ∈ l, (g.cell p.1 p.2).val = 0) → I g →
      I (seedCells givens l g) ∧
      ∀ r c, ((seedCells givens l g).cell r c).val =
        if (r, c) ∈ l then (match givens r c with
          | some v => (v.val : Int)
          | none => 0) else (g.cell r c).val := by
  induction l with
  | nil =>
    intro g _ _ h0
    simp [seedCells_nil, h0]
  | cons x xs ih =>
    intro g hnd hz h0
    obtain ⟨r0, c0⟩ := x
    have hnd1 := (List.nodup_cons.1 hnd).2
    have hnot : (r0, c0) ∉ xs := (List.nodup_cons.1 hnd).1
    rw [seedCells_cons]
    cases hg : givens r0 c0 with
    | none =>
      simp only
      obtain ⟨h1, h2⟩ := ih g hnd1 (fun p hp => hz p (List.mem_cons_of_mem _ hp)) h0
      refine ⟨h1, ?_⟩
      intro r c
      rw [h2 r c]
      by_cases hm : (r, c) ∈ xs
      · rw [if_pos hm, if_pos (List.mem_cons_of_mem _ hm)]
      · rw [if_neg hm]
        by_cases he : (r, c) = (r0, c0)
        · rw [if_pos (by rw [he]; exact List.mem_cons_self _ _)]
          have e1 : r = r0 := congrArg Prod.fst he
          have e2 : c = c0 := congrArg Prod.snd he
          rw [e1, e2, hg]
          exact hz (r0, c0) (List.mem_cons_self _ _)
        · rw [if_neg]
          intro hmem
          rcases List.mem_cons.1 hmem with h | h
          · exact he h
          · exact hm h
    | some v =>
      simp only
      have hz0 : (g.cell r0 c0).val = 0 := hz (r0, c0) (List.mem_cons_self _ _)
      have hz1 : ∀ p ∈ xs, ((insertValue g v r0 c0).cell p.1 p.2).val = 0 := by
        intro p hp
        rw [val_insertValue, if_neg]
        · exact hz p (List.mem_cons_of_mem _ hp)
        · rintro ⟨h1, h2⟩
          apply hnot
          have : p = (r0, c0) := Prod.ext h1 h2
          rw [← this]
          exact hp
      obtain ⟨h1, h2⟩ := ih (insertValue g v r0 c0) hnd1 hz1 (hI g r0 c0 v h0 hz0 hg)
      refine ⟨h1, ?_⟩
      intro r c
      rw [h2 r c]
      by_cases hm : (r, c) ∈ xs
      · rw [if_pos hm, if_pos (List.mem_cons_of_mem _ hm)]
      · rw [if_neg hm, val_insertValue]
        by_cases he : r = r0 ∧ c = c0
        · rw [if_pos he, he.1, he.2, if_pos (List.mem_cons_self _ _), hg]
        · rw [if_neg he, if_neg]
          intro hmem
          rcases List.mem_cons.1 hmem with h | h
          · exact he ⟨congrArg Prod.fst h, congrArg Prod.snd h⟩
          · exact hm h

theorem noClash_freshGrid (E : Fin 9 × Fin 9 → Fin 9 × Fin 9 → Prop) :
    NoClash E freshGrid := by
  refine ⟨?_, ?_, ?_⟩
  · intro r c
    rw [cell_freshGrid]
    simp
  · intro r c r1 c1 _ _ hnz
    rw [cell_freshGrid] at hnz
    exact absurd rfl hnz
  · intro r c r1 c1 m _ hval hm
    rw [cell_freshGrid] at hval
    simp only at hval
    omega

theorem compatible_freshGrid {S : Fin 9 → Fin 9 → Int} (hS : ValidTable S) :
    Compatible S freshGrid := by
  intro r c
  rw [cell_freshGrid]
  refine ⟨fun h => absurd rfl h, fun _ => ?_⟩
  have := hS.pos r c
  refine ⟨⟨(S r c).toNat, by omega⟩, by simp only; omega, by simp only; omega, ?_⟩
  simp only
  rw [Mathlib.Vector.get_replicate]

/-- A grid seeded with givens that a valid table agrees with is free of
clashes, compatible with the table, and holds exactly the givens. -/
theorem seed_facts {S : Fin 9 → Fin 9 → Int} (hS : ValidTable S)
    (givens : Fin 9 → Fin 9 → Option (Fin 10))
    (hag : ∀ r c v, givens r c = some v → S r c = (v.val : Int)) :
    NoClash (fun _ _ => False) (seed givens) ∧ Compatible S (seed givens) ∧
    ∀ r c, ((seed givens).cell r c).val =
      match givens r c with
      | some v => (v.val : Int)
      | none => 0 := by
  have key := seedCells_preserves givens
    (fun g => NoClash (fun _ _ => False) g ∧ Compatible S g)
    (by
      rintro g r c v ⟨h1, h2⟩ hz hv
      obtain ⟨m, hm0, hm1, hm2⟩ := (h2 r c).2 hz
      have hmv : m = v := Fin.ext (by have := hag r c v hv; omega)
      rw [hmv] at hm0 hm1 hm2
      exact ⟨Legal.noClash_step h1 ⟨r, c, v, hz, hm1, hm2, rfl⟩, h2.insert hS r c v hm0⟩)
    allCells freshGrid nodup_allCells
    (by
      intro p _
      rw [cell_freshGrid])
    ⟨noClash_freshGrid _, compatible_freshGrid hS⟩
  refine ⟨key.1.1, key.1.2, ?_⟩
  intro r c
  have := key.2 r c
  rw [if_pos (mem_allCells _)] at this
  exact this

/-! ## Facts about the concrete grids -/

theorem solvedGrid_complete : isSudokuComplete solvedGrid = some true := by decide

theorem solvedGrid_valid : ValidTable solvedGrid.vals :=
  ((isSudokuComplete_spec solvedGrid).1 solvedGrid_complete).2

theorem solvedGrid_vals (r c : Fin 9) : solvedGrid.vals r c = ((solvedEntry r c).val : Int) := by
  unfold Grid.vals Grid.cell solvedGrid
  rw [Mathlib.Vector.get_ofFn, Mathlib.Vector.get_ofFn]
  rfl

theorem seed_vals (givens : Fin 9 → Fin 9 → Option (Fin 10)) (r c : Fin 9) :
    ((seed givens).cell r c).val =
      match givens r c with
      | some v => (v.val : Int)
      | none => 0 := by
  have key := seedCells_preserves givens (fun _ => True) (fun _ _ _ _ _ _ _ => trivial)
    allCells freshGrid nodup_allCells
    (by
      intro p _
      rw [cell_freshGrid])
    trivial
  have := key.2 r c
  rw [if_pos (mem_allCells _)] at this
  exact this

theorem allOnes_val (r c : Fin 9) : (allOnes.cell r c).val = 1 := by
  unfold allOnes
  rw [seed_vals]
  rfl

theorem allOnes_check : isSudokuComplete allOnes = some false := by
  have hr : InRange allOnes := by
    intro r c
    rw [allOnes_val]
    omega
  cases h : isSudokuComplete allOnes with
  | none => exact absurd h (isSudokuComplete_ne_none hr)
  | some b =>
    cases b with
    | false => rfl
    | true =>
      have hv := ((isSudokuComplete_spec allOnes).1 h).2
      have := ((hv 1 (by omega) (by omega)).1 0).unique
        (show allOnes.vals 0 0 = 1 from allOnes_val 0 0)
        (show allOnes.vals 0 1 = 1 from allOnes_val 0 1)
      exact absurd this (by decide)

/-! ## A grid with a single unassigned cell -/

theorem scan_skip (g : Grid) (l1 l2 : List (Fin 9 × Fin 9)) (best : Option (Fin 9 × Fin 9))
    (h : ∀ p ∈ l1, (g.cell p.1 p.2).val ≠ 0) :
    scanCells g (l1 ++ l2) best = scanCells g l2 best := by
  induction l1 with
  | nil => rfl
  | cons x xs ih =>
    obtain ⟨r, c⟩ := x
    rw [List.cons_append, scanCells, if_neg (h (r, c) (List.mem_cons_self _ _))]
    exact ih fun p hp => h p (List.mem_cons_of_mem _ hp)

theorem candCount_eq_one (p : Mathlib.Vector Bool 10) (s : Fin 10) (hs : p.get s = true)
    (hs1 : 1 ≤ s.val) (hothers : ∀ m : Fin 10, 1 ≤ m.val → m ≠ s → p.get m = false) :
    candCount p 1 = 1 := by
  obtain ⟨m, _, h2, h3, _, h5⟩ := searchFrom_spec p 10 1 (by omega) (candCount_pos_of p s 1 hs hs1)
  have hz : candCount p (m.val + 1) = 0 := by
    by_contra hne
    obtain ⟨j, _, hj2, hj3, _, _⟩ := searchFrom_spec p 10 (m.val + 1) (by omega) (by omega)
    have hms : m = s := by
      by_contra hms
      rw [hothers m h2 hms] at h3
      exact Bool.noConfusion h3
    have hjs : j ≠ s := by
      intro hjs
      rw [hjs, ← hms] at hj2
      omega
    rw [hothers j (by omega) hjs] at hj3
    exact Bool.noConfusion hj3
  omega

theorem digitOf_val (v : Int) (h0 : 0 ≤ v) (h9 : v ≤ 9) : ((digitOf v).val : Int) = v := by
  unfold digitOf
  simp only [Fin.ofNat]
  omega

/-- The run of the solver on the grid seeded with every cell of a completed
grid `S` but one: the first pass of the scan fills the missing cell, the
second finds nothing to do, and the terminal check passes. -/
theorem single_missing (S : Grid) (hS : isSudokuComplete S = some true) (r0 c0 : Fin 9) :
    scanCells (seed (allBut S r0 c0)) allCells none
      = .moved (insertValue (seed (allBut S r0 c0)) (digitOf (S.cell r0 c0).val) r0 c0) ∧
    scanCells (insertValue (seed (allBut S r0 c0)) (digitOf (S.cell r0 c0).val) r0 c0)
      allCells none = .fixed none ∧
    isSudokuComplete (insertValue (seed (allBut S r0 c0)) (digitOf (S.cell r0 c0).val) r0 c0)
      = some true ∧
    ∀ r c, ((insertValue (seed (allBut S r0 c0)) (digitOf (S.cell r0 c0).val) r0 c0).cell
      r c).val = (S.cell r c).val := by
  obtain ⟨hrange, hvalid⟩ := (isSudokuComplete_spec S).1 hS
  have hpos : ∀ r c, 1 ≤ (S.cell r c).val ∧ (S.cell r c).val ≤ 9 := fun r c => hvalid.pos r c
  have hdig : ∀ r c, ((digitOf (S.cell r c).val).val : Int) = (S.cell r c).val :=
    fun r c => digitOf_val _ (by have := hpos r c; omega) (hpos r c).2
  have hag : ∀ r c v, allBut S r0 c0 r c = some v → S.vals r c = (v.val : Int) := by
    intro r c v hv
    unfold allBut at hv
    by_cases he : r = r0 ∧ c = c0
    · rw [if_pos he] at hv
      cases hv
    · rw [if_neg he] at hv
      rw [← Option.some.inj hv]
      exact (hdig r c).symm
  obtain ⟨hnc, hcomp, hvals⟩ := seed_facts hvalid (allBut S r0 c0) hag
  generalize hg0 : seed (allBut S r0 c0) = g0 at hnc hcomp hvals ⊢
  have hv0 : (g0.cell r0 c0).val = 0 := by
    rw [hvals]
    unfold allBut
    rw [if_pos ⟨rfl, rfl⟩]
  have hvne : ∀ r c, ¬ (r = r0 ∧ c = c0) → (g0.cell r c).val = (S.cell r c).val := by
    intro r c he
    rw [hvals]
    unfold allBut
    rw [if_neg he]
    exact hdig r c
  obtain ⟨s, hs0, hs1, hs2⟩ := (hcomp r0 c0).2 hv0
  have hsn : s = digitOf (S.cell r0 c0).val := Fin.ext (by
    have := hdig r0 c0
    have : S.vals r0 c0 = (S.cell r0 c0).val := rfl
    omega)
  rw [← hsn]
  have hothers : ∀ m : Fin 10, 1 ≤ m.val → m ≠ s → (g0.cell r0 c0).possible.get m = false := by
    intro m hm hms
    obtain ⟨c1, hc1, _⟩ := (hvalid (m.val : Int) (by omega) (by omega)).1 r0
    have hcne : ¬ (r0 = r0 ∧ c1 = c0) := by
      rintro ⟨_, h⟩
      apply hms
      rw [h] at hc1
      exact Fin.ext (by omega)
    have hval : (g0.cell r0 c1).val = (m.val : Int) := by
      rw [hvne r0 c1 hcne]
      exact hc1
    exact hnc.2.2 r0 c1 r0 c0 m (Or.inr (Or.inl rfl)) hval hm hv0
  have hcount : countPossibilities g0 r0 c0 = 1 := by
    unfold countPossibilities
    rw [countCell_eq]
    exact candCount_eq_one _ s hs2 hs1 hothers
  have hsearch : searchFrom (g0.cell r0 c0).possible 10 1 = some s :=
    searchFrom_unique _ 10 1 s (by omega) (by rw [← countCell_eq]; exact hcount) hs2 hs1
  have hvals1 : ∀ r c, ((insertValue g0 s r0 c0).cell r c).val = (S.cell r c).val := by
    intro r c
    rw [val_insertValue]
    by_cases he : r = r0 ∧ c = c0
    · rw [if_pos he, he.1, he.2, hs0]
      rfl
    · rw [if_neg he]
      exact hvne r c he
  have hfull : ∀ r c, ((insertValue g0 s r0 c0).cell r c).val ≠ 0 := by
    intro r c
    rw [hvals1]
    have := hpos r c
    omega
  refine ⟨?_, scan_full _ _ _ fun p _ => hfull p.1 p.2, ?_, hvals1⟩
  · obtain ⟨l1, l2, hl⟩ := List.append_of_mem (mem_allCells (r0, c0))
    have hnd := nodup_allCells
    rw [hl] at hnd ⊢
    have hnot : (r0, c0) ∉ l1 := by
      intro hmem
      have := (List.nodup_middle.1 hnd)
      exact (List.nodup_cons.1 this).1 (List.mem_append_left _ hmem)
    rw [scan_skip g0 l1 _ none]
    · rw [scanCells, if_pos hv0]
      simp only
      rw [if_neg (by omega), if_pos hcount, hsearch]
    · intro p hp
      have hne : ¬ (p.1 = r0 ∧ p.2 = c0) := by
        rintro ⟨h1, h2⟩
        apply hnot
        have : p = (r0, c0) := Prod.ext h1 h2
        rw [← this]
        exact hp
      rw [hvne p.1 p.2 hne]
      have := hpos p.1 p.2
      omega
  · exact (hcomp.insert hvalid r0 c0 s hs0).complete hvalid hfull

/-- The call of the solver on such a grid, with no recursion allowed. -/
theorem single_missing_run (S : Grid) (hS : isSudokuComplete S = some true) (r0 c0 : Fin 9) :
    propagate 2 (seed (allBut S r0 c0))
      = .fixed (insertValue (seed (allBut S r0 c0)) (digitOf (S.cell r0 c0).val) r0 c0) none ∧
    ∀ fuel, solveSudoku (fuel + 1) (seed (allBut S r0 c0))
      = .returned true
          (insertValue (seed (allBut S r0 c0)) (digitOf (S.cell r0 c0).val) r0 c0) := by
  obtain ⟨h1, h2, h3, _⟩ := single_missing S hS r0 c0
  have hp : ∀ k, propagate (k + 2) (seed (allBut S r0 c0))
      = .fixed (insertValue (seed (allBut S r0 c0)) (digitOf (S.cell r0 c0).val) r0 c0)
          none := by
    intro k
    rw [propagate, h1]
    simp only
    rw [propagate, h2]
  refine ⟨hp 0, ?_⟩
  intro fuel
  rw [solveSudoku_succ, hp 80]
  simp only
  rw [h3]

/-! ## Two equal givens in one row -/

theorem twoInRow_val (v : Fin 10) (r c1 c2 x y : Fin 9) :
    ((twoInRow v r c1 c2).cell x y).val
      = if (x = r ∧ y = c2) ∨ (x = r ∧ y = c1) then (v.val : Int) else 0 := by
  unfold twoInRow
  rw [val_insertValue, val_insertValue, cell_freshGrid]
  by_cases h2 : x = r ∧ y = c2
  · rw [if_pos h2, if_pos (Or.inl h2)]
  · rw [if_neg h2]
    by_cases h1 : x = r ∧ y = c1
    · rw [if_pos h1, if_pos (Or.inr h1)]
    · rw [if_neg h1, if_neg]
      rintro (h | h)
      · exact h2 h
      · exact h1 h

theorem twoInRow_noClash (v : Fin 10) (hv : 1 ≤ v.val) (r c1 c2 : Fin 9) :
    NoClash (rowPair r c1 c2) (twoInRow v r c1 c2) := by
  refine ⟨?_, ?_, ?_⟩
  · intro x y
    rw [twoInRow_val]
    have := v.isLt
    split <;> omega
  · intro x y x1 y1 _ hne hnz heq
    rw [twoInRow_val] at hnz heq
    rw [twoInRow_val] at heq
    by_cases hA : (x = r ∧ y = c2) ∨ (x = r ∧ y = c1)
    · rw [if_pos hA] at heq
      by_cases hB : (x1 = r ∧ y1 = c2) ∨ (x1 = r ∧ y1 = c1)
      · unfold rowPair
        rcases hA with ⟨a1, a2⟩ | ⟨a1, a2⟩ <;> rcases hB with ⟨b1, b2⟩ | ⟨b1, b2⟩
        · exact absurd (by rw [a1, a2, b1, b2]) hne
        · exact Or.inr ⟨by rw [a1, a2], by rw [b1, b2]⟩
        · exact Or.inl ⟨by rw [a1, a2], by rw [b1, b2]⟩
        · exact absurd (by rw [a1, a2, b1, b2]) hne
      · rw [if_neg hB] at heq
        omega
    · rw [if_neg hA] at hnz
      exact absurd rfl hnz
  · intro x y x1 y1 m hu hval hm hz
    rw [twoInRow_val] at hval hz
    by_cases hA : (x = r ∧ y = c2) ∨ (x = r ∧ y = c1)
    · rw [if_pos hA] at hval
      have hmv : m = v := Fin.ext (by omega)
      unfold twoInRow
      rw [possible_insertValue]
      by_cases h2 : x = r ∧ y = c2
      · rw [h2.1, h2.2] at hu
        rw [if_pos (Or.inr ⟨hmv, hu⟩)]
      · have h1 : x = r ∧ y = c1 := by
          rcases hA with h | h
          · exact absurd h h2
          · exact h
        rw [h1.1, h1.2] at hu
        by_cases hout : (x1 = r ∧ y1 = c2 ∧ 1 ≤ m.val) ∨ (m = v ∧ sameUnit r c2 x1 y1)
        · rw [if_pos hout]
        · rw [if_neg hout, possible_insertValue, if_pos (Or.inr ⟨hmv, hu⟩)]
    · rw [if_neg hA] at hval
      omega

/-- A grid in which two cells of row `r` hold the same value `v` and no other
two cells of a unit clash has an unassigned cell: the eight other rows would
need `v` in eight different columns, none of them `c1` or `c2`. -/
theorem rowPair_not_full {g : Grid} {v : Int} (hv1 : 1 ≤ v) (hv9 : v ≤ 9) {r c1 c2 : Fin 9}
    (hne : c1 ≠ c2) (hnc : NoClash (rowPair r c1 c2) g) (h1 : (g.cell r c1).val = v)
    (h2 : (g.cell r c2).val = v) : ¬ ∀ x y, (g.cell x y).val ≠ 0 := by
  intro hfull
  obtain ⟨hr, hb, _⟩ := hnc
  have hpos : ∀ x y, 1 ≤ (g.cell x y).val ∧ (g.cell x y).val ≤ 9 := by
    intro x y
    have := hr x y
    have := hfull x y
    omega
  -- two equal values in one column, in different rows
  have hcol : ∀ x x1 y : Fin 9, x ≠ x1 → (g.cell x y).val = (g.cell x1 y).val →
      x = r ∧ x1 = r := by
    intro x x1 y hx heq
    have hp : (x1, y) ≠ (x, y) := fun h => hx (congrArg Prod.fst h).symm
    rcases hb x y x1 y (Or.inl rfl) hp (hfull x y) heq.symm with ⟨e1, e2⟩ | ⟨e1, e2⟩
    · exact ⟨congrArg Prod.fst e1, congrArg Prod.fst e2⟩
    · exact ⟨congrArg Prod.fst e1, congrArg Prod.fst e2⟩
  have hex : ∀ x : Fin 9, x ≠ r → ∃ y, (g.cell x y).val = v := by
    intro x hx
    have := existsUnique_of_injective (by simp) (fun y => (g.cell x y).val) (fun y => hpos x y)
      (by
        intro y y1 heq
        by_contra hy
        have hp : (x, y1) ≠ (x, y) := fun h => hy (congrArg Prod.snd h).symm
        rcases hb x y x y1 (Or.inr (Or.inl rfl)) hp (hfull x y) heq.symm with
          ⟨e1, _⟩ | ⟨e1, _⟩
        · exact hx (congrArg Prod.fst e1)
        · exact hx (congrArg Prod.fst e1))
      v hv1 hv9
    exact this.exists
  let f : Fin 9 → Fin 9 := fun x => if hx : x = r then c1 else Classical.choose (hex x hx)
  have hf : ∀ x, x ≠ r → (g.cell x (f x)).val = v := by
    intro x hx
    simp only [f, dif_neg hx]
    exact Classical.choose_spec (hex x hx)
  have hfr : f r = c1 := by simp [f]
  have hinj : Function.Injective f := by
    intro a b hab
    by_contra hne1
    by_cases ha : a = r
    · have hbr : b ≠ r := fun h => hne1 (by rw [ha, h])
      have hvb := hf b hbr
      rw [← hab, ha, hfr] at hvb
      exact hbr (hcol r b c1 (fun h => hbr h.symm) (by rw [h1, hvb])).2
    · have hva := hf a ha
      by_cases hbr : b = r
      · rw [hab, hbr, hfr] at hva
        exact ha (hcol r a c1 (fun h => ha h.symm) (by rw [h1, hva])).2
      · have hvb := hf b hbr
        rw [← hab] at hvb
        exact ha (hcol a b (f a) hne1 (by rw [hva, hvb])).1
  obtain ⟨x, hx⟩ := (Finite.injective_iff_surjective.1 hinj) c2
  by_cases hxr : x = r
  · rw [hxr, hfr] at hx
    exact hne hx
  · have hvx := hf x hxr
    rw [hx] at hvx
    exact hxr (hcol r x c2 (fun h => hxr h.symm) (by rw [h2, hvx])).2

theorem twoInRow_run (v : Fin 10) (hv : 1 ≤ v.val) (r c1 c2 : Fin 9) (hne : c1 ≠ c2)
    (fuel : Nat) (hfuel : 82 ≤ fuel) :
    ∃ g1, solveSudoku fuel (twoInRow v r c1 c2) = .returned false g1 := by
  have hnc := twoInRow_noClash v hv r c1 c2
  have hval1 : ((twoInRow v r c1 c2).cell r c1).val = (v.val : Int) := by
    rw [twoInRow_val, if_pos (Or.inr ⟨rfl, rfl⟩)]
  have hval2 : ((twoInRow v r c1 c2).cell r c2).val = (v.val : Int) := by
    rw [twoInRow_val, if_pos (Or.inl ⟨rfl, rfl⟩)]
  have hkeep : ∀ g1, Reach (twoInRow v r c1 c2) g1 →
      (g1.cell r c1).val = (v.val : Int) ∧ (g1.cell r c2).val = (v.val : Int) := by
    intro g1 hreach
    refine ⟨?_, ?_⟩
    · rw [hreach.keeps r c1 (by rw [hval1]; omega), hval1]
    · rw [hreach.keeps r c2 (by rw [hval2]; omega), hval2]
  have hv9 : v.val ≤ 9 := by have := v.isLt; omega
  cases h : solveSudoku fuel (twoInRow v r c1 c2) with
  | returned b g1 =>
    cases b with
    | false => exact ⟨g1, rfl⟩
    | true =>
      obtain ⟨hreach, hc⟩ := solve_true h
      obtain ⟨k1, k2⟩ := hkeep g1 hreach
      have hsv := ((isSudokuComplete_spec g1).1 hc).2
      have := ((hsv (v.val : Int) (by omega) (by omega)).1 r).unique
        (show g1.vals r c1 = _ from k1) (show g1.vals r c2 = _ from k2)
      exact absurd this hne
  | outOfBounds =>
    obtain ⟨g1, hreach, hcase⟩ := solve_outOfBounds h
    have hnc1 := hreach.noClash hnc
    obtain ⟨k1, k2⟩ := hkeep g1 hreach
    rcases hcase with hn | ⟨_, hfull⟩
    · exact absurd hn (isSudokuComplete_ne_none hnc1.1)
    · exact absurd hfull (rowPair_not_full (by omega) (by omega) hne hnc1 k1 k2)
  | outOfFuel =>
    have := unassigned_le (twoInRow v r c1 c2)
    exact absurd h (solve_ne_outOfFuel (by omega))

/-! ## Running the propagation loop again -/

theorem propagate_contradiction_scan (k : Nat) :
    ∀ g g1 : Grid, propagate k g = .contradiction g1 →
      scanCells g1 allCells none = .contradiction := by
  induction k with
  | zero =>
    intro g g1 h
    simp [propagate] at h
  | succ k ih =>
    intro g g1 h
    rw [propagate] at h
    cases hs : scanCells g allCells none with
    | contradiction =>
      rw [hs] at h
      simp only at h
      have : g = g1 := by
        injection h
      rw [← this]
      exact hs
    | moved g2 =>
      rw [hs] at h
      exact ih g2 g1 h
    | fixed b =>
      rw [hs] at h
      cases h
    | outOfBounds =>
      rw [hs] at h
      cases h

theorem propagate_of_fixed {g : Grid} {b : Option (Fin 9 × Fin 9)}
    (h : scanCells g allCells none = .fixed b) (j : Nat) :
    propagate (j + 1) g = .fixed g b := by
  rw [propagate, h]

theorem propagate_of_contradiction {g : Grid}
    (h : scanCells g allCells none = .contradiction) (j : Nat) :
    propagate (j + 1) g = .contradiction g := by
  rw [propagate, h]

/-! ## The tracked cell -/

theorem pairwise_allCells : allCells.Pairwise rowMajorLt := by decide

theorem firstMin_scan (g : Grid) (l : List (Fin 9 × Fin 9)) :
    ∀ (pre : List (Fin 9 × Fin 9)) (best b : Option (Fin 9 × Fin 9)),
      scanCells g l best = .fixed b → FirstMin g pre best → FirstMin g (pre ++ l) b := by
  induction l with
  | nil =>
    intro pre best b h hfm
    rw [scanCells] at h
    have : best = b := by
      injection h
    rw [List.append_nil, ← this]
    exact hfm
  | cons x xs ih =>
    intro pre best b h hfm
    obtain ⟨r, c⟩ := x
    have hpre : pre ++ (r, c) :: xs = (pre ++ [(r, c)]) ++ xs := by simp
    rw [hpre]
    rw [scanCells] at h
    by_cases hv : (g.cell r c).val = 0
    · rw [if_pos hv] at h
      simp only at h
      by_cases h0 : countPossibilities g r c = 0
      · rw [if_pos h0] at h
        cases h
      · rw [if_neg h0] at h
        by_cases h1 : countPossibilities g r c = 1
        · rw [if_pos h1] at h
          cases hsf : searchFrom (g.cell r c).possible 10 1 with
          | none =>
            rw [hsf] at h
            cases h
          | some n =>
            rw [hsf] at h
            cases h
        · rw [if_neg h1] at h
          -- the cell becomes the tracked one
          have hnew : FirstMin g (pre ++ [(r, c)]) (some (r, c)) →
              scanCells g xs (some (r, c)) = .fixed b → FirstMin g ((pre ++ [(r, c)]) ++ xs) b :=
            fun hf hs => ih _ _ _ hs hf
          cases hbest : best with
          | none =>
            rw [hbest] at h hfm
            simp only at h
            apply hnew _ h
            refine ⟨pre, [], rfl, hv, ?_, ?_⟩
            · intro p hp hz
              exact absurd hz (hfm p hp)
            · intro p hp
              cases hp
          | some q =>
            obtain ⟨rm, cm⟩ := q
            rw [hbest] at h hfm
            simp only at h
            obtain ⟨l1, l2, hl, hq, hb1, hb2⟩ := hfm
            by_cases hlt : countPossibilities g r c < countPossibilities g rm cm
            · rw [if_pos hlt] at h
              apply hnew _ h
              refine ⟨pre, [], rfl, hv, ?_, ?_⟩
              · intro p hp hz
                rw [hl] at hp
                rcases List.mem_append.1 hp with hp1 | hp1
                · have := hb1 p hp1 hz
                  simp only at this ⊢
                  omega
                · rcases List.mem_cons.1 hp1 with rfl | hp2
                  · exact hlt
                  · have := hb2 p hp2 hz
                    simp only at this ⊢
                    omega
              · intro p hp
                cases hp
            · rw [if_neg hlt] at h
              apply ih _ _ _ h
              refine ⟨l1, l2 ++ [(r, c)], by rw [hl]; simp, hq, hb1, ?_⟩
              intro p hp hz
              rcases List.mem_append.1 hp with hp1 | hp1
              · exact hb2 p hp1 hz
              · rcases List.mem_singleton.1 hp1 with rfl
                simp only at hlt ⊢
                omega
    · rw [if_neg hv] at h
      apply ih _ _ _ h
      cases hbest : best with
      | none =>
        rw [hbest] at hfm
        intro p hp
        rcases List.mem_append.1 hp with hp1 | hp1
        · exact hfm p hp1
        · rcases List.mem_singleton.1 hp1 with rfl
          exact hv
      | some q =>
        rw [hbest] at hfm
        obtain ⟨l1, l2, hl, hq, hb1, hb2⟩ := hfm
        refine ⟨l1, l2 ++ [(r, c)], by rw [hl]; simp, hq, hb1, ?_⟩
        intro p hp hz
        rcases List.mem_append.1 hp with hp1 | hp1
        · exact hb2 p hp1 hz
        · rcases List.mem_singleton.1 hp1 with rfl
          exact absurd hz hv

/-- At a fixed point of the scan with an unassigned cell, the tracked cell is
an unassigned cell with the fewest possibilities, and the first such cell in
the order of the scan. -/
theorem fixed_best {g : Grid} {b : Option (Fin 9 × Fin 9)}
    (h : scanCells g allCells none = .fixed b) (hex : ∃ r c, (g.cell r c).val = 0) :
    ∃ rm cm : Fin 9, b = some (rm, cm) ∧ (g.cell rm cm).val = 0 ∧
      (∀ r c, (g.cell r c).val = 0 →
        countPossibilities g rm cm ≤ countPossibilities g r c) ∧
      (∀ r c, (g.cell r c).val = 0 →
        countPossibilities g r c = countPossibilities g rm cm →
        (r, c) = (rm, cm) ∨ rowMajorLt (rm, cm) (r, c)) := by
  have hfm := firstMin_scan g allCells [] none b h (by intro p hp; cases hp)
  rw [List.nil_append] at hfm
  cases hb : b with
  | none =>
    rw [hb] at hfm
    obtain ⟨r, c, hz⟩ := hex
    exact absurd hz (hfm (r, c) (mem_allCells _))
  | some q =>
    obtain ⟨rm, cm⟩ := q
    rw [hb] at hfm
    obtain ⟨l1, l2, hl, hq, hb1, hb2⟩ := hfm
    have hmem : ∀ p : Fin 9 × Fin 9, p ∈ l1 ∨ p = (rm, cm) ∨ p ∈ l2 := by
      intro p
      have := mem_allCells p
      rw [hl] at this
      rcases List.mem_append.1 this with h1 | h1
      · exact Or.inl h1
      · exact Or.inr (List.mem_cons.1 h1)
    have hpw := pairwise_allCells
    rw [hl] at hpw
    have hafter : ∀ p ∈ l2, rowMajorLt (rm, cm) p :=
      (List.pairwise_cons.1 (List.pairwise_append.1 hpw).2.1).1
    refine ⟨rm, cm, rfl, hq, ?_, ?_⟩
    · intro r c hz
      rcases hmem (r, c) with h1 | h1 | h1
      · exact le_of_lt (hb1 (r, c) h1 hz)
      · have e1 : r = rm := congrArg Prod.fst h1
        have e2 : c = cm := congrArg Prod.snd h1
        rw [e1, e2]
      · exact hb2 (r, c) h1 hz
    · intro r c hz heq
      rcases hmem (r, c) with h1 | h1 | h1
      · have := hb1 (r, c) h1 hz
        simp only at this
        omega
      · exact Or.inl h1
      · exact Or.inr (hafter (r, c) h1)

/-! ## The fresh grid at the start of a call -/

theorem freshGrid_stalls : propagate 82 freshGrid = .fixed freshGrid (some (0, 0)) := by
  decide

theorem freshGrid_check : isSudokuComplete freshGrid = some false := by decide

/-! ## Consistent grids -/

theorem consistent_freshGrid : Consistent freshGrid := by
  refine ⟨?_, ?_⟩
  · intro r c r1 c1 _ _ hnz
    rw [cell_freshGrid] at hnz
    exact absurd rfl hnz
  · intro r c _ m hm
    rw [cell_freshGrid]
    simp only
    rw [Mathlib.Vector.get_replicate]
    refine ⟨fun _ r1 c1 _ _ => ?_, fun _ => rfl⟩
    rw [cell_freshGrid]
    simp only
    omega

theorem Legal.consistent_step {g g1 : Grid} (h : Consistent g) (hl : Legal g g1) :
    Consistent g1 := by
  obtain ⟨r0, c0, n, hv0, hn, hpn, rfl⟩ := hl
  obtain ⟨hb, hc⟩ := h
  have hfree : ∀ r1 c1 : Fin 9, sameUnit r0 c0 r1 c1 → (r1, c1) ≠ (r0, c0) →
      (g.cell r1 c1).val ≠ (n.val : Int) := ((hc r0 c0 hv0 n hn).1 hpn)
  have hpair : ∀ r c : Fin 9, (r, c) ≠ (r0, c0) → ¬ (r = r0 ∧ c = c0) := by
    intro r c hne hh
    exact hne (by rw [hh.1, hh.2])
  refine ⟨?_, ?_⟩
  · intro r c r1 c1 hu hne hnz
    rw [val_insertValue] at hnz ⊢
    rw [val_insertValue]
    by_cases he : r = r0 ∧ c = c0
    · have he1 : ¬ (r1 = r0 ∧ c1 = c0) := by
        rintro ⟨h1, h2⟩
        apply hne
        rw [h1, h2, he.1, he.2]
      rw [if_pos he, if_neg he1]
      rw [he.1, he.2] at hu hne
      exact hfree r1 c1 hu hne
    · rw [if_neg he] at hnz ⊢
      by_cases he1 : r1 = r0 ∧ c1 = c0
      · rw [if_pos he1]
        rw [he1.1, he1.2] at hu
        have hne1 : (r, c) ≠ (r0, c0) := fun hp =>
          he ⟨congrArg Prod.fst hp, congrArg Prod.snd hp⟩
        exact fun e => hfree r c (sameUnit_symm hu) hne1 e.symm
      · rw [if_neg he1]
        exact hb r c r1 c1 hu hne hnz
  · intro r c hz m hm
    rw [val_insertValue] at hz
    by_cases he : r = r0 ∧ c = c0
    · rw [if_pos he] at hz
      omega
    · rw [if_neg he] at hz
      have hne0 : (r0, c0) ≠ (r, c) := fun hp =>
        he ⟨(congrArg Prod.fst hp).symm, (congrArg Prod.snd hp).symm⟩
      rw [possible_insertValue]
      by_cases hcl : m = n ∧ sameUnit r0 c0 r c
      · rw [if_pos (Or.inr hcl)]
        constructor
        · intro hf
          exact Bool.noConfusion hf
        · intro hall
          have := hall r0 c0 (sameUnit_symm hcl.2) hne0
          rw [val_insertValue, if_pos ⟨rfl, rfl⟩, hcl.1] at this
          exact absurd rfl this
      · rw [if_neg]
        · rw [hc r c hz m hm]
          constructor
          · intro hall r1 c1 hu hne
            rw [val_insertValue]
            by_cases he1 : r1 = r0 ∧ c1 = c0
            · rw [if_pos he1]
              rw [he1.1, he1.2] at hu
              intro e
              apply hcl
              exact ⟨Fin.ext (by omega), sameUnit_symm hu⟩
            · rw [if_neg he1]
              exact hall r1 c1 hu hne
          · intro hall r1 c1 hu hne
            have := hall r1 c1 hu hne
            rw [val_insertValue] at this
            by_cases he1 : r1 = r0 ∧ c1 = c0
            · rw [he1.1, he1.2, hv0]
              omega
            · rw [if_neg he1] at this
              exact this
        · rintro (⟨h1, h2, _⟩ | h1)
          · exact he ⟨h1, h2⟩
          · exact hcl h1

theorem Reach.consistent {g g1 : Grid} (h : Reach g g1) (h0 : Consistent g) : Consistent g1 :=
  Reach.preserves (fun _ _ hI hl => Legal.consistent_step hI hl) h h0

/-! ## Candidate flags are only cleared -/

theorem insertValue_shrinks (g : Grid) (v : Fin 10) (row col r c : Fin 9) (m : Fin 10)
    (h : ((insertValue g v row col).cell r c).possible.get m = true) :
    (g.cell r c).possible.get m = true := by
  rw [possible_insertValue] at h
  split at h
  · exact Bool.noConfusion h
  · exact h

theorem Reach.shrinks {g g1 : Grid} (h : Reach g g1) :
    ∀ (r c : Fin 9) (m : Fin 10), (g1.cell r c).possible.get m = true →
      (g.cell r c).possible.get m = true := by
  induction h with
  | refl =>
    intro r c m hm
    exact hm
  | tail _ h2 ih =>
    intro r c m hm
    obtain ⟨r0, c0, n, _, _, _, rfl⟩ := h2
    exact ih r c m (insertValue_shrinks _ n r0 c0 r c m hm)

/-! ## The call after the propagation loop stalled -/

theorem solveSudoku_stalled (fuel : Nat) {g g1 : Grid} {rm cm : Fin 9}
    (hp : propagate 82 g = .fixed g1 (some (rm, cm)))
    (hc : isSudokuComplete g1 = some false) :
    solveSudoku (fuel + 1) g
      = branch (solveSudoku fuel) g1 rm cm (countPossibilities g1 rm cm) 1 := by
  rw [solveSudoku_succ, hp]
  simp only
  rw [hc]

/-- The trial loop returns true as soon as the trial of a candidate does and
the trials of all smaller candidates returned false. -/
theorem branch_first (solve : Grid → Outcome) (g : Grid) (rm cm : Fin 9) (k : Nat) :
    ∀ n, 1 ≤ n → candCount (g.cell rm cm).possible n = k →
      ∀ (m : Fin 10) (g2 : Grid), n ≤ m.val → (g.cell rm cm).possible.get m = true →
        solve (insertValue g m rm cm) = .returned true g2 →
        (∀ j : Fin 10, n ≤ j.val → j.val < m.val → (g.cell rm cm).possible.get j = true →
          ∃ g3, solve (insertValue g j rm cm) = .returned false g3) →
        branch solve g rm cm k n = .returned true g2 := by
  induction k with
  | zero =>
    intro n _ hc m g2 hm1 hm2 _ _
    have := candCount_pos_of _ m n hm2 hm1
    omega
  | succ k ih =>
    intro n hn hc m g2 hm1 hm2 hsol hsmall
    obtain ⟨m1, h1, h2, h3, h4, h5⟩ :=
      searchFrom_spec (g.cell rm cm).possible 10 n (by omega) (by omega)
    rw [branch, h1]
    simp only
    have hle : m1.val ≤ m.val := by
      by_contra hlt
      have := h4 m hm1 (by omega)
      rw [hm2] at this
      exact Bool.noConfusion this
    by_cases heq : m1 = m
    · rw [heq, hsol]
    · have hlt : m1.val < m.val := by
        have : m1.val ≠ m.val := fun e => heq (Fin.ext e)
        omega
      obtain ⟨g3, hg3⟩ := hsmall m1 h2 hlt h3
      rw [hg3]
      simp only
      exact ih (m1.val + 1) (by omega) (by omega) m g2 (by omega) hm2 hsol
        (fun j hj1 hj2 hj3 => hsmall j (by omega) hj2 hj3)

/-! ## Two equal givens: the first call -/

theorem twoInRow_stalls :
    propagate 82 (twoInRow 1 0 0 1) = .fixed (twoInRow 1 0 0 1) (some (0, 2)) := by
  decide

theorem twoInRow_check : isSudokuComplete (twoInRow 1 0 0 1) = some false := by decide

/-! ## The claims -/

/-- C1 (soundness of `solveSudoku`): whenever a call of `solveSudoku` returns
true, `isSudokuComplete` returns true on the grid the call leaves behind;
every cell of that grid holds a value in 1..9, and every row, column and 3×3
block contains each of 1..9 exactly once. -/
theorem solveSudoku_sound (fuel : Nat) (g g1 : Grid)
    (h : solveSudoku fuel g = .returned true g1) :
    isSudokuComplete g1 = some true ∧
    (∀ r c, 1 ≤ (g1.cell r c).val ∧ (g1.cell r c).val ≤ 9) ∧ SpecValid g1 := by
  have hc := (solve_true h).2
  have hv := ((isSudokuComplete_spec g1).1 hc).2
  exact ⟨hc, fun r c => hv.pos r c, hv⟩

theorem solveSudoku_sound_witness :
    solveSudoku 1 (seed (allBut solvedGrid 4 4))
      = .returned true
          (insertValue (seed (allBut solvedGrid 4 4)) (digitOf (solvedGrid.cell 4 4).val) 4 4) ∧
    (isSudokuComplete
        (insertValue (seed (allBut solvedGrid 4 4)) (digitOf (solvedGrid.cell 4 4).val) 4 4)
      = some true ∧
     (∀ r c, 1 ≤ ((insertValue (seed (allBut solvedGrid 4 4))
          (digitOf (solvedGrid.cell 4 4).val) 4 4).cell r c).val ∧
        ((insertValue (seed (allBut solvedGrid 4 4))
          (digitOf (solvedGrid.cell 4 4).val) 4 4).cell r c).val ≤ 9) ∧
     SpecValid
        (insertValue (seed (allBut solvedGrid 4 4)) (digitOf (solvedGrid.cell 4 4).val) 4 4)) :=
  ⟨(single_missing_run solvedGrid solvedGrid_complete 4 4).2 0,
   solveSudoku_sound 1 _ _ ((single_missing_run solvedGrid solvedGrid_complete 4 4).2 0)⟩

/-- C3 (`solveSudoku` never overwrites a given): whenever a call returns true,
the grid it leaves behind arises from the input grid by commits to cells whose
value was 0 only, so every cell that was non-zero in the input holds the same
value in the output, and the output passes the terminal check: it is a
solution of the puzzle that was passed in. -/
theorem solveSudoku_keeps_givens (fuel : Nat) (g g1 : Grid)
    (h : solveSudoku fuel g = .returned true g1) :
    Reach g g1 ∧
    (∀ r c, (g.cell r c).val ≠ 0 → (g1.cell r c).val = (g.cell r c).val) ∧
    isSudokuComplete g1 = some true :=
  ⟨(solve_true h).1, (solve_true h).1.keeps, (solve_true h).2⟩

theorem solveSudoku_keeps_givens_witness :
    solveSudoku 3 (seed (allBut solvedGrid 0 8))
      = .returned true
          (insertValue (seed (allBut solvedGrid 0 8)) (digitOf (solvedGrid.cell 0 8).val) 0 8) ∧
    (Reach (seed (allBut solvedGrid 0 8))
        (insertValue (seed (allBut solvedGrid 0 8)) (digitOf (solvedGrid.cell 0 8).val) 0 8) ∧
     (∀ r c, ((seed (allBut solvedGrid 0 8)).cell r c).val ≠ 0 →
        ((insertValue (seed (allBut solvedGrid 0 8))
          (digitOf (solvedGrid.cell 0 8).val) 0 8).cell r c).val
          = ((seed (allBut solvedGrid 0 8)).cell r c).val) ∧
     isSudokuComplete
        (insertValue (seed (allBut solvedGrid 0 8)) (digitOf (solvedGrid.cell 0 8).val) 0 8)
      = some true) :=
  ⟨(single_missing_run solvedGrid solvedGrid_complete 0 8).2 2,
   solveSudoku_keeps_givens 3 _ _ ((single_missing_run solvedGrid solvedGrid_complete 0 8).2 2)⟩

/-- C4 (`isSudokuComplete` equals its reference definition): on a grid whose
cell values are in 0..9 the function returns true or false (it stays inside
`occurrences`); it returns true if and only if each of the 27 groups (9 rows,
9 columns, and the 9 blocks with top-left corner `(3i, 3j)`) contains every
value 1..9 exactly once; and it returns false whenever a cell is unassigned. -/
theorem isSudokuComplete_reference (g : Grid) (h : InRange g) :
    (isSudokuComplete g = some true ↔ SpecValid g) ∧
    (isSudokuComplete g = some false ↔ ¬ SpecValid g) ∧
    ((∃ r c, (g.cell r c).val = 0) → isSudokuComplete g = some false) := by
  have hiff : isSudokuComplete g = some true ↔ SpecValid g := by
    rw [isSudokuComplete_spec]
    exact ⟨fun hh => hh.2, fun hh => ⟨h, hh⟩⟩
  have hfalse : isSudokuComplete g = some false ↔ ¬ SpecValid g := by
    rw [← hiff]
    cases hc : isSudokuComplete g with
    | none => exact absurd hc (isSudokuComplete_ne_none h)
    | some b => cases b <;> simp
  refine ⟨hiff, hfalse, ?_⟩
  rintro ⟨r, c, hz⟩
  rw [hfalse]
  intro hv
  have := hv.pos r c
  have e : g.vals r c = (g.cell r c).val := rfl
  omega

theorem isSudokuComplete_reference_witness :
    InRange freshGrid ∧
    ((isSudokuComplete freshGrid = some true ↔ SpecValid freshGrid) ∧
     (isSudokuComplete freshGrid = some false ↔ ¬ SpecValid freshGrid) ∧
     ((∃ r c, (freshGrid.cell r c).val = 0) → isSudokuComplete freshGrid = some false)) :=
  ⟨(noClash_freshGrid fun _ _ => False).1,
   isSudokuComplete_reference freshGrid (noClash_freshGrid fun _ _ => False).1⟩

/-- C5 (commit correctness): after `insertValue(grid, v, row, col)` the cell
`(row, col)` has value `v`, and no other cell of row `row`, of column `col` or
of the 3×3 block with top-left corner `(3*(row/3), 3*(col/3))` has `v` in its
candidate set. -/
theorem insertValue_commit (g : Grid) (v : Fin 10) (row col : Fin 9) :
    ((insertValue g v row col).cell row col).val = (v.val : Int) ∧
    ∀ r c : Fin 9, (r, c) ≠ (row, col) →
      (r = row ∨ c = col ∨
        (3 * (row.val / 3) ≤ r.val ∧ r.val < 3 * (row.val / 3) + 3 ∧
         3 * (col.val / 3) ≤ c.val ∧ c.val < 3 * (col.val / 3) + 3)) →
      ((insertValue g v row col).cell r c).possible.get v = false := by
  refine ⟨?_, ?_⟩
  · rw [val_insertValue, if_pos ⟨rfl, rfl⟩]
  · intro r c _ hu
    rw [possible_insertValue, if_pos]
    refine Or.inr ⟨rfl, ?_⟩
    unfold sameUnit
    rcases hu with hu | hu | ⟨h1, h2, h3, h4⟩
    · exact Or.inr (Or.inl hu)
    · exact Or.inl hu
    · exact Or.inr (Or.inr ⟨by omega, by omega⟩)

/-- C6 (a complete but invalid grid): on the grid `loadGrid` builds from 81
digits `1` the propagation loop ends at once with every cell assigned and the
tracked cell unset (`rMinPoss = cMinPoss = -1`), the terminal check returns
false, and the call then reads `grid[-1][-1]` (line 228) instead of returning
false. -/
theorem allOnes_outOfBounds (fuel : Nat) :
    (∀ r c, (allOnes.cell r c).val = 1) ∧
    propagate 82 allOnes = .fixed allOnes none ∧
    isSudokuComplete allOnes = some false ∧
    solveSudoku (fuel + 1) allOnes = .outOfBounds := by
  have hfull : ∀ r c, (allOnes.cell r c).val ≠ 0 := by
    intro r c
    rw [allOnes_val]
    omega
  refine ⟨allOnes_val, propagate_full allOnes 81 hfull, allOnes_check, ?_⟩
  rw [solveSudoku_full allOnes fuel hfull, allOnes_check]
  simp

/-- C7 (contradiction detection): for every value `v` in 1..9, every row `r`
and every two distinct columns `c1`, `c2`, the solver returns false on the
fresh grid into which `v` was inserted at `(r, c1)` and at `(r, c2)`. -/
theorem twoInRow_unsolvable (v : Fin 10) (hv : 1 ≤ v.val) (r c1 c2 : Fin 9) (hne : c1 ≠ c2)
    (fuel : Nat) (hfuel : 82 ≤ fuel) :
    ∃ g1, solveSudoku fuel (insertValue (insertValue freshGrid v r c1) v r c2)
      = .returned false g1 :=
  twoInRow_run v hv r c1 c2 hne fuel hfuel

theorem twoInRow_unsolvable_witness :
    (1 ≤ (1 : Fin 10).val ∧ (0 : Fin 9) ≠ 1 ∧ 82 ≤ 82) ∧
    ∃ g1, solveSudoku 82 (insertValue (insertValue freshGrid 1 0 0) 1 0 1)
      = .returned false g1 :=
  ⟨⟨by decide, by decide, by decide⟩,
   twoInRow_unsolvable 1 (by decide) 0 0 1 (by decide) 82 (by decide)⟩

/-- C2 (completeness of `solveSudoku`): when the givens seeded into a fresh
grid (one `insertValue` per given) have a completion, that is a table that
agrees with every given and in which every row, column and 3×3 block contains
each of 1..9 exactly once, `solveSudoku` returns true; so it returns false
only when no such completion exists. -/
theorem solveSudoku_complete (givens : Fin 9 → Fin 9 → Option (Fin 10))
    (hsol : ∃ S : Fin 9 → Fin 9 → Int, ValidTable S ∧
      ∀ r c v, givens r c = some v → S r c = (v.val : Int)) :
    (∃ g1, solveSudoku 82 (seed givens) = .returned true g1) ∧
    ∀ g1, solveSudoku 82 (seed givens) ≠ .returned false g1 := by
  obtain ⟨S, hS, hag⟩ := hsol
  obtain ⟨hnc, hcomp, _⟩ := seed_facts hS givens hag
  have hlt : unassigned (seed givens) < 82 := by
    have := unassigned_le (seed givens)
    omega
  obtain ⟨g1, hg1⟩ := complete_aux hS 82 (seed givens) hnc hcomp hlt
  refine ⟨⟨g1, hg1⟩, ?_⟩
  intro g2 hg2
  rw [hg1] at hg2
  cases hg2

theorem solveSudoku_complete_witness :
    (∃ S : Fin 9 → Fin 9 → Int, ValidTable S ∧
      ∀ r c v, firstRowBlank r c = some v → S r c = (v.val : Int)) ∧
    ((∃ g1, solveSudoku 82 (seed firstRowBlank) = .returned true g1) ∧
     ∀ g1, solveSudoku 82 (seed firstRowBlank) ≠ .returned false g1) :=
  have hsol : ∃ S : Fin 9 → Fin 9 → Int, ValidTable S ∧
      ∀ r c v, firstRowBlank r c = some v → S r c = (v.val : Int) :=
    ⟨solvedGrid.vals, solvedGrid_valid, by
      intro r c v hv
      unfold firstRowBlank at hv
      by_cases h0 : r.val = 0
      · rw [if_pos h0] at hv
        cases hv
      · rw [if_neg h0] at hv
        rw [← Option.some.inj hv]
        exact solvedGrid_vals r c⟩
  ⟨hsol, solveSudoku_complete firstRowBlank hsol⟩

/-- C8 (completeness on the empty grid): `solveSudoku` applied to the fresh
grid, all 81 cells unassigned and all candidates open, returns true and leaves
a grid that passes `isSudokuComplete`. -/
theorem solveSudoku_freshGrid :
    ∃ g1, solveSudoku 82 freshGrid = .returned true g1 ∧ isSudokuComplete g1 = some true := by
  have hlt : unassigned freshGrid < 82 := by
    have := unassigned_le freshGrid
    omega
  obtain ⟨g1, hg1⟩ := complete_aux solvedGrid_valid 82 freshGrid (noClash_freshGrid _)
    (compatible_freshGrid solvedGrid_valid) hlt
  exact ⟨g1, hg1, (solve_true hg1).2⟩

/-- C9 (single missing cell): for a completed grid `S` that passes
`isSudokuComplete` and a position `(r0, c0)`, on the grid seeded with every
cell of `S` except `(r0, c0)` the first pass of the propagation loop commits
`S[r0][c0]` at `(r0, c0)`, the second pass commits nothing and ends the loop
with no tracked cell, and the call returns true with every cell value equal
to that of `S`; the call needs no recursive call (recursion bound 1). -/
theorem solveSudoku_single_missing (S : Grid) (hS : isSudokuComplete S = some true)
    (r0 c0 : Fin 9) :
    scanCells (seed (allBut S r0 c0)) allCells none
      = .moved (insertValue (seed (allBut S r0 c0)) (digitOf (S.cell r0 c0).val) r0 c0) ∧
    scanCells (insertValue (seed (allBut S r0 c0)) (digitOf (S.cell r0 c0).val) r0 c0)
      allCells none = .fixed none ∧
    propagate 2 (seed (allBut S r0 c0))
      = .fixed (insertValue (seed (allBut S r0 c0)) (digitOf (S.cell r0 c0).val) r0 c0) none ∧
    (∀ fuel, solveSudoku (fuel + 1) (seed (allBut S r0 c0))
      = .returned true
          (insertValue (seed (allBut S r0 c0)) (digitOf (S.cell r0 c0).val) r0 c0)) ∧
    (((digitOf (S.cell r0 c0).val).val : Int) = (S.cell r0 c0).val) ∧
    ∀ r c, ((insertValue (seed (allBut S r0 c0)) (digitOf (S.cell r0 c0).val) r0 c0).cell
      r c).val = (S.cell r c).val := by
  obtain ⟨h1, h2, _, h4⟩ := single_missing S hS r0 c0
  obtain ⟨h5, h6⟩ := single_missing_run S hS r0 c0
  have hpos := ((isSudokuComplete_spec S).1 hS).2.pos r0 c0
  exact ⟨h1, h2, h5, h6, digitOf_val _ (by have : S.vals r0 c0 = (S.cell r0 c0).val := rfl; omega)
    (by have : S.vals r0 c0 = (S.cell r0 c0).val := rfl; omega), h4⟩

theorem solveSudoku_single_missing_witness :
    isSudokuComplete solvedGrid = some true ∧
    solveSudoku 1 (seed (allBut solvedGrid 8 0))
      = .returned true
          (insertValue (seed (allBut solvedGrid 8 0)) (digitOf (solvedGrid.cell 8 0).val) 8 0) :=
  ⟨solvedGrid_complete,
   (solveSudoku_single_missing solvedGrid solvedGrid_complete 8 0).2.2.2.1 0⟩

/-- C10 (termination of `solveSudoku`): a grid has at most 81 unassigned
cells; every commit of the call assigns an unassigned cell, so that a
recursion bound above the number of unassigned cells of the input is never
reached, and with any such bound the call gives the same result (the
propagation loop itself ends within its 82 passes). -/
theorem solveSudoku_total (g : Grid) (fuel : Nat) (h : unassigned g < fuel) :
    unassigned g ≤ 81 ∧
    propagate 82 g ≠ .outOfFuel ∧
    solveSudoku fuel g ≠ .outOfFuel ∧
    solveSudoku fuel g = solveSudoku (unassigned g + 1) g ∧
    (∀ g1, Legal g g1 → unassigned g1 < unassigned g) :=
  ⟨unassigned_le g, propagate_ne_outOfFuel g, solve_ne_outOfFuel h,
   solveSudoku_fuel fuel (unassigned g + 1) g h (Nat.lt_succ_self _),
   fun _ hl => hl.unassigned_lt⟩

theorem solveSudoku_total_witness :
    unassigned freshGrid < 82 ∧
    (unassigned freshGrid ≤ 81 ∧
     propagate 82 freshGrid ≠ .outOfFuel ∧
     solveSudoku 82 freshGrid ≠ .outOfFuel ∧
     solveSudoku 82 freshGrid = solveSudoku (unassigned freshGrid + 1) freshGrid ∧
     (∀ g1, Legal freshGrid g1 → unassigned g1 < unassigned freshGrid)) :=
  ⟨Nat.lt_succ_of_le (unassigned_le freshGrid),
   solveSudoku_total freshGrid 82 (Nat.lt_succ_of_le (unassigned_le freshGrid))⟩

/-- C11 (idempotence of propagation): the `while` loop of `solveSudoku` ends
either at a fixed point or in a contradiction, and running it again (with any
number of passes allowed) on the grid it left gives the same outcome, the same
tracked cell and the same grid: stalled or complete stays so with no further
commit, and a contradiction is met again at once. -/
theorem propagate_idempotent (g : Grid) (j : Nat) :
    match propagate 82 g with
    | .fixed g1 b => propagate (j + 1) g1 = .fixed g1 b
    | .contradiction g1 => propagate (j + 1) g1 = .contradiction g1
    | .outOfBounds => False
    | .outOfFuel => False := by
  cases h : propagate 82 g with
  | fixed g1 b => exact propagate_of_fixed (propagate_fixed h).2 j
  | contradiction g1 => exact propagate_of_contradiction (propagate_contradiction_scan 82 g g1 h) j
  | outOfBounds => exact propagate_ne_outOfBounds 82 g h
  | outOfFuel => exact propagate_ne_outOfFuel g h

/-- C12 (first solution in fixed search order): when propagation stalls at the
branching cell `(rm, cm)` of the propagated grid `g1`, the call returns true
with grid `g2` exactly when the recursive call on the clone with some candidate
`m` committed at the branching cell returns true with `g2` and the recursive
calls for all smaller candidates returned false; it returns false, leaving
`g1`, exactly when the recursive calls for all candidates returned false; and
when every such recursive call returns, the call returns true if and only if
one of them does. -/
theorem branch_order (fuel : Nat) (g g1 : Grid) (rm cm : Fin 9)
    (hp : propagate 82 g = .fixed g1 (some (rm, cm)))
    (hc : isSudokuComplete g1 = some false) :
    (∀ g2, solveSudoku (fuel + 1) g = .returned true g2 ↔
      ∃ m : Fin 10, 1 ≤ m.val ∧ (g1.cell rm cm).possible.get m = true ∧
        solveSudoku fuel (insertValue g1 m rm cm) = .returned true g2 ∧
        ∀ j : Fin 10, 1 ≤ j.val → j.val < m.val → (g1.cell rm cm).possible.get j = true →
          ∃ g3, solveSudoku fuel (insertValue g1 j rm cm) = .returned false g3) ∧
    (∀ g2, solveSudoku (fuel + 1) g = .returned false g2 ↔
      g2 = g1 ∧ ∀ j : Fin 10, 1 ≤ j.val → (g1.cell rm cm).possible.get j = true →
        ∃ g3, solveSudoku fuel (insertValue g1 j rm cm) = .returned false g3) ∧
    ((∀ j : Fin 10, 1 ≤ j.val → (g1.cell rm cm).possible.get j = true →
        ∃ b g3, solveSudoku fuel (insertValue g1 j rm cm) = .returned b g3) →
      ((∃ g2, solveSudoku (fuel + 1) g = .returned true g2) ↔
        ∃ (m : Fin 10) (g2 : Grid), 1 ≤ m.val ∧ (g1.cell rm cm).possible.get m = true ∧
          solveSudoku fuel (insertValue g1 m rm cm) = .returned true g2)) ∧
    (NoClash (fun _ _ => False) g → unassigned g ≤ fuel →
      ∀ j : Fin 10, 1 ≤ j.val → (g1.cell rm cm).possible.get j = true →
        ∃ b g3, solveSudoku fuel (insertValue g1 j rm cm) = .returned b g3) := by
  have hrun := solveSudoku_stalled fuel hp hc
  have hbr := branch_spec (solveSudoku fuel) g1 rm cm
    (countPossibilities g1 rm cm) 1 (le_refl _) (countCell_eq _).symm
  rw [← hrun] at hbr
  have htrue : ∀ g2, solveSudoku (fuel + 1) g = .returned true g2 ↔
      ∃ m : Fin 10, 1 ≤ m.val ∧ (g1.cell rm cm).possible.get m = true ∧
        solveSudoku fuel (insertValue g1 m rm cm) = .returned true g2 ∧
        ∀ j : Fin 10, 1 ≤ j.val → j.val < m.val → (g1.cell rm cm).possible.get j = true →
          ∃ g3, solveSudoku fuel (insertValue g1 j rm cm) = .returned false g3 := by
    intro g2
    constructor
    · intro h
      rw [h] at hbr
      exact hbr
    · rintro ⟨m, h1, h2, h3, h4⟩
      rw [hrun]
      exact branch_first (solveSudoku fuel) g1 rm cm _ 1 (le_refl _) (countCell_eq _).symm
        m g2 h1 h2 h3 h4
  refine ⟨htrue, ?_, ?_, ?_⟩
  · intro g2
    constructor
    · intro h
      rw [h] at hbr
      exact hbr
    · rintro ⟨hg, hall⟩
      revert hbr
      cases solveSudoku (fuel + 1) g with
      | returned b2 g4 =>
        cases b2 with
        | true =>
          rintro ⟨m, h1, h2, h3, _⟩
          obtain ⟨g3, hg3⟩ := hall m h1 h2
          rw [h3] at hg3
          cases hg3
        | false =>
          rintro ⟨hg4, _⟩
          rw [hg4, hg]
      | outOfBounds =>
        rintro ⟨m, h1, h2, h3⟩
        obtain ⟨g3, hg3⟩ := hall m h1 h2
        rw [h3] at hg3
        cases hg3
      | outOfFuel =>
        rintro ⟨m, h1, h2, h3⟩
        obtain ⟨g3, hg3⟩ := hall m h1 h2
        rw [h3] at hg3
        cases hg3
  · intro hret
    constructor
    · rintro ⟨g2, h⟩
      obtain ⟨m, h1, h2, h3, _⟩ := (htrue g2).1 h
      exact ⟨m, g2, h1, h2, h3⟩
    · rintro ⟨m, g2, h1, h2, h3⟩
      revert hbr
      cases solveSudoku (fuel + 1) g with
      | returned b2 g4 =>
        cases b2 with
        | true =>
          intro _
          exact ⟨g4, rfl⟩
        | false =>
          rintro ⟨_, hall⟩
          obtain ⟨g3, hg3⟩ := hall m h1 h2
          rw [h3] at hg3
          cases hg3
      | outOfBounds =>
        rintro ⟨m1, k1, k2, k3⟩
        obtain ⟨b, g3, hg3⟩ := hret m1 k1 k2
        rw [k3] at hg3
        cases hg3
      | outOfFuel =>
        rintro ⟨m1, k1, k2, k3⟩
        obtain ⟨b, g3, hg3⟩ := hret m1 k1 k2
        rw [k3] at hg3
        cases hg3
  · intro hnc hfuel j hj1 hj2
    obtain ⟨hreach, hscan⟩ := propagate_fixed hp
    have hl : Legal g1 (insertValue g1 j rm cm) :=
      ⟨rm, cm, j, (fixed_facts hscan).2.2 rm cm rfl, hj1, hj2, rfl⟩
    have hnc1 := Legal.noClash_step (hreach.reach.noClash hnc) hl
    have hlt := hl.unassigned_lt
    have hle := hreach.reach.unassigned_mono
    cases hs : solveSudoku fuel (insertValue g1 j rm cm) with
    | returned b g3 => exact ⟨b, g3, rfl⟩
    | outOfBounds => exact absurd hs (solve_ne_outOfBounds fuel hnc1)
    | outOfFuel => exact absurd hs (solve_ne_outOfFuel (by omega))

theorem branch_order_witness :
    propagate 82 freshGrid = .fixed freshGrid (some (0, 0)) ∧
    isSudokuComplete freshGrid = some false ∧
    (∀ g2, solveSudoku 82 freshGrid = .returned false g2 ↔
      g2 = freshGrid ∧ ∀ j : Fin 10, 1 ≤ j.val → (freshGrid.cell 0 0).possible.get j = true →
        ∃ g3, solveSudoku 81 (insertValue freshGrid j 0 0) = .returned false g3) :=
  ⟨freshGrid_stalls, freshGrid_check,
   (branch_order 81 freshGrid freshGrid 0 0 freshGrid_stalls freshGrid_check).2.1⟩

/-- C13 (branch-cell selection): whenever the propagation loop ends at a fixed
point and at least one cell is unassigned, the tracked cell is set, is
unassigned, has the fewest possibilities among all unassigned cells, and comes
first in row-major order among the unassigned cells with that count. -/
theorem branch_cell_selection (k : Nat) (g g1 : Grid) (b : Option (Fin 9 × Fin 9))
    (h : propagate k g = .fixed g1 b) (hex : ∃ r c, (g1.cell r c).val = 0) :
    ∃ rm cm : Fin 9, b = some (rm, cm) ∧ (g1.cell rm cm).val = 0 ∧
      (∀ r c, (g1.cell r c).val = 0 →
        countPossibilities g1 rm cm ≤ countPossibilities g1 r c) ∧
      (∀ r c, (g1.cell r c).val = 0 →
        countPossibilities g1 r c = countPossibilities g1 rm cm →
        (r, c) = (rm, cm) ∨ rowMajorLt (rm, cm) (r, c)) :=
  fixed_best (propagate_fixed h).2 hex

theorem branch_cell_selection_witness :
    (propagate 82 freshGrid = .fixed freshGrid (some (0, 0)) ∧
      ∃ r c, (freshGrid.cell r c).val = 0) ∧
    ∃ rm cm : Fin 9, some ((0 : Fin 9), (0 : Fin 9)) = some (rm, cm) ∧
      (freshGrid.cell rm cm).val = 0 ∧
      (∀ r c, (freshGrid.cell r c).val = 0 →
        countPossibilities freshGrid rm cm ≤ countPossibilities freshGrid r c) ∧
      (∀ r c, (freshGrid.cell r c).val = 0 →
        countPossibilities freshGrid r c = countPossibilities freshGrid rm cm →
        (r, c) = (rm, cm) ∨ rowMajorLt (rm, cm) (r, c)) :=
  ⟨⟨freshGrid_stalls, 0, 0, by rw [cell_freshGrid]⟩,
   branch_cell_selection 82 freshGrid freshGrid (some (0, 0)) freshGrid_stalls
     ⟨0, 0, by rw [cell_freshGrid]⟩⟩

/-- C14 (propagation reaches a true fixed point before branching): whenever
the propagation loop ends without returning false, the grid is a fixed point
of the scan and every unassigned cell has at least 2 candidates, so neither a
forced move nor a cell without candidates is left for the terminal check and
the branching. -/
theorem propagate_true_fixed_point (k : Nat) (g g1 : Grid) (b : Option (Fin 9 × Fin 9))
    (h : propagate k g = .fixed g1 b) :
    scanCells g1 allCells none = .fixed b ∧
    ∀ r c, (g1.cell r c).val = 0 → 2 ≤ countPossibilities g1 r c :=
  ⟨(propagate_fixed h).2, (fixed_facts (propagate_fixed h).2).1⟩

theorem propagate_true_fixed_point_witness :
    propagate 82 freshGrid = .fixed freshGrid (some (0, 0)) ∧
    (scanCells freshGrid allCells none = .fixed (some (0, 0)) ∧
     ∀ r c, (freshGrid.cell r c).val = 0 → 2 ≤ countPossibilities freshGrid r c) :=
  ⟨freshGrid_stalls,
   propagate_true_fixed_point 82 freshGrid freshGrid (some (0, 0)) freshGrid_stalls⟩

/-- C15 (consistency invariant): the fresh grid is consistent; `insertValue`
of a candidate of an unassigned cell keeps a grid consistent; hence, for a
consistent input grid, the grid the propagation loop leaves, every clone with
a candidate committed at the branching cell, and the grid a call of
`solveSudoku` leaves are consistent, as is every grid reached by such
commits. -/
theorem consistency_invariant :
    Consistent freshGrid ∧
    (∀ (g : Grid) (n : Fin 10) (r c : Fin 9), Consistent g → (g.cell r c).val = 0 →
      1 ≤ n.val → (g.cell r c).possible.get n = true → Consistent (insertValue g n r c)) ∧
    (∀ g g1 : Grid, Consistent g → Reach g g1 → Consistent g1) ∧
    (∀ g : Grid, Consistent g → ∀ k : Nat,
      (∀ g1 b, propagate k g = .fixed g1 b →
        Reach g g1 ∧ Consistent g1 ∧
        ∀ (rm cm : Fin 9) (m : Fin 10), b = some (rm, cm) → 1 ≤ m.val →
          (g1.cell rm cm).possible.get m = true →
          Reach g (insertValue g1 m rm cm) ∧ Consistent (insertValue g1 m rm cm)) ∧
      (∀ g1, propagate k g = .contradiction g1 → Reach g g1 ∧ Consistent g1)) ∧
    (∀ g : Grid, Consistent g → ∀ (fuel : Nat) (b : Bool) (g1 : Grid),
      solveSudoku fuel g = .returned b g1 → Reach g g1 ∧ Consistent g1) := by
  refine ⟨consistent_freshGrid, ?_, ?_, ?_, ?_⟩
  · intro g n r c hg hv hn hp
    exact Legal.consistent_step hg ⟨r, c, n, hv, hn, hp, rfl⟩
  · intro g g1 hg hr
    exact hr.consistent hg
  · intro g hg k
    refine ⟨?_, ?_⟩
    · intro g1 b h
      obtain ⟨hreach, hscan⟩ := propagate_fixed h
      refine ⟨hreach.reach, hreach.reach.consistent hg, ?_⟩
      intro rm cm m hb hm hp
      have hl : Legal g1 (insertValue g1 m rm cm) :=
        ⟨rm, cm, m, (fixed_facts hscan).2.2 rm cm hb, hm, hp, rfl⟩
      exact ⟨Relation.ReflTransGen.tail hreach.reach hl,
        Legal.consistent_step (hreach.reach.consistent hg) hl⟩
    · intro g1 h
      have hreach := (propagate_contradiction h).1
      exact ⟨hreach.reach, hreach.reach.consistent hg⟩
  · intro g hg fuel b g1 h
    cases b with
    | true => exact ⟨(solve_true h).1, (solve_true h).1.consistent hg⟩
    | false => exact ⟨solve_false h, (solve_false h).consistent hg⟩

/-- C16 (candidate sets only shrink): after `insertValue` every cell's
candidate set is a subset of its candidate set before the call, and in the
grid a call of `solveSudoku` leaves, whether it returns true or false, every
cell's candidate set is a subset of that cell's candidate set in the input
grid. -/
theorem candidates_shrink (fuel : Nat) (g : Grid) (b : Bool) (g1 : Grid)
    (h : solveSudoku fuel g = .returned b g1) :
    (∀ (g0 : Grid) (v : Fin 10) (row col r c : Fin 9) (m : Fin 10),
      ((insertValue g0 v row col).cell r c).possible.get m = true →
        (g0.cell r c).possible.get m = true) ∧
    ∀ (r c : Fin 9) (m : Fin 10), (g1.cell r c).possible.get m = true →
      (g.cell r c).possible.get m = true := by
  refine ⟨insertValue_shrinks, ?_⟩
  cases b with
  | true => exact (solve_true h).1.shrinks
  | false => exact (solve_false h).shrinks

theorem candidates_shrink_witness :
    solveSudoku 1 (seed (allBut solvedGrid 5 5))
      = .returned true
          (insertValue (seed (allBut solvedGrid 5 5)) (digitOf (solvedGrid.cell 5 5).val) 5 5) ∧
    ∀ (r c : Fin 9) (m : Fin 10),
      ((insertValue (seed (allBut solvedGrid 5 5))
        (digitOf (solvedGrid.cell 5 5).val) 5 5).cell r c).possible.get m = true →
      ((seed (allBut solvedGrid 5 5)).cell r c).possible.get m = true :=
  ⟨(single_missing_run solvedGrid solvedGrid_complete 5 5).2 0,
   (candidates_shrink 1 _ true _ ((single_missing_run solvedGrid solvedGrid_complete 5 5).2 0)).2⟩

/-- C18 (frame of `insertValue`): `insertValue(grid, v, row, col)` sets the
value of `(row, col)` to `v`, clears the flags 1..9 of `(row, col)` and the
flag `v` of the cells of row `row`, column `col` and the block of
`(row, col)`, and changes nothing else: every other cell keeps its value, a
flag for a value other than `v` in another cell is unchanged, flag 0 of
`(row, col)` is unchanged when `v` is not 0, and every cell outside the row,
the column and the block is unchanged. -/
theorem insertValue_frame (g : Grid) (v : Fin 10) (row col : Fin 9) :
    ((insertValue g v row col).cell row col).val = (v.val : Int) ∧
    (∀ m : Fin 10, 1 ≤ m.val →
      ((insertValue g v row col).cell row col).possible.get m = false) ∧
    (∀ r c : Fin 9, sameUnit row col r c →
      ((insertValue g v row col).cell r c).possible.get v = false) ∧
    (∀ r c : Fin 9, (r, c) ≠ (row, col) →
      ((insertValue g v row col).cell r c).val = (g.cell r c).val) ∧
    (∀ (r c : Fin 9) (m : Fin 10), (r, c) ≠ (row, col) → m ≠ v →
      ((insertValue g v row col).cell r c).possible.get m = (g.cell r c).possible.get m) ∧
    (v.val ≠ 0 →
      ((insertValue g v row col).cell row col).possible.get 0
        = (g.cell row col).possible.get 0) ∧
    (∀ r c : Fin 9, ¬ sameUnit row col r c → (insertValue g v row col).cell r c = g.cell r c) := by
  have hne : ∀ r c : Fin 9, (r, c) ≠ (row, col) → ¬ (r = row ∧ c = col) := by
    intro r c h hh
    exact h (by rw [hh.1, hh.2])
  refine ⟨?_, ?_, ?_, ?_, ?_, ?_, ?_⟩
  · rw [val_insertValue, if_pos ⟨rfl, rfl⟩]
  · intro m hm
    rw [possible_insertValue, if_pos (Or.inl ⟨rfl, rfl, hm⟩)]
  · intro r c hu
    rw [possible_insertValue, if_pos (Or.inr ⟨rfl, hu⟩)]
  · intro r c h
    rw [val_insertValue, if_neg (hne r c h)]
  · intro r c m h hm
    rw [possible_insertValue, if_neg]
    rintro (⟨h1, h2, _⟩ | ⟨h1, _⟩)
    · exact hne r c h ⟨h1, h2⟩
    · exact hm h1
  · intro hv
    rw [possible_insertValue, if_neg]
    rintro (⟨_, _, h1⟩ | ⟨h1, _⟩)
    · simp at h1
    · apply hv
      rw [← h1]
      rfl
  · intro r c hu
    have hrc : ¬ (r = row ∧ c = col) := by
      rintro ⟨h1, h2⟩
      apply hu
      rw [h1, h2]
      exact Or.inl rfl
    have hval : ((insertValue g v row col).cell r c).val = (g.cell r c).val := by
      rw [val_insertValue, if_neg hrc]
    have hposs : ((insertValue g v row col).cell r c).possible = (g.cell r c).possible := by
      apply Mathlib.Vector.ext
      intro m
      rw [possible_insertValue, if_neg]
      rintro (⟨h1, h2, _⟩ | ⟨_, h1⟩)
      · exact hrc ⟨h1, h2⟩
      · exact hu h1
    cases hc1 : (insertValue g v row col).cell r c with
    | mk v1 p1 =>
      cases hc2 : g.cell r c with
      | mk v2 p2 =>
        rw [hc1, hc2] at hval hposs
        simp only at hval hposs
        rw [hval, hposs]

/-- C19 (propagation never discards a solution): when a completed valid table
`S` is compatible with a grid, the propagation loop does not end in a
contradiction, `S` is compatible with the grid the loop leaves at its fixed
point, and `S` is compatible with the clone in which the value of `S` was
committed at the branching cell. -/
theorem propagation_keeps_solutions (S : Fin 9 → Fin 9 → Int) (hS : ValidTable S)
    (g : Grid) (h : Compatible S g) (k : Nat) :
    (∀ g1, propagate k g ≠ .contradiction g1) ∧
    (∀ g1 b, propagate k g = .fixed g1 b →
      Compatible S g1 ∧
      ∀ (rm cm : Fin 9) (m : Fin 10), b = some (rm, cm) → (m.val : Int) = S rm cm →
        (g1.cell rm cm).possible.get m = true ∧ Compatible S (insertValue g1 m rm cm)) := by
  refine ⟨?_, ?_⟩
  · intro g1 hp
    obtain ⟨hreach, p, hp1, hp2⟩ := propagate_contradiction hp
    have := (hreach.compatible hS h).count_pos hp1
    omega
  · intro g1 b hp
    obtain ⟨hreach, hscan⟩ := propagate_fixed hp
    have hc1 := hreach.compatible hS h
    refine ⟨hc1, ?_⟩
    intro rm cm m hb hm
    refine ⟨?_, hc1.insert hS rm cm m hm⟩
    obtain ⟨s, hs0, _, hs2⟩ := (hc1 rm cm).2 ((fixed_facts hscan).2.2 rm cm hb)
    have : m = s := Fin.ext (by omega)
    rw [this]
    exact hs2

theorem propagation_keeps_solutions_witness :
    (ValidTable solvedGrid.vals ∧ Compatible solvedGrid.vals freshGrid) ∧
    ((∀ g1, propagate 82 freshGrid ≠ .contradiction g1) ∧
     (∀ g1 b, propagate 82 freshGrid = .fixed g1 b →
      Compatible solvedGrid.vals g1 ∧
      ∀ (rm cm : Fin 9) (m : Fin 10), b = some (rm, cm) →
        (m.val : Int) = solvedGrid.vals rm cm →
        (g1.cell rm cm).possible.get m = true ∧
          Compatible solvedGrid.vals (insertValue g1 m rm cm))) :=
  ⟨⟨solvedGrid_valid, compatible_freshGrid solvedGrid_valid⟩,
   propagation_keeps_solutions solvedGrid.vals solvedGrid_valid freshGrid
     (compatible_freshGrid solvedGrid_valid) 82⟩

/-- C17 (failed trials leave no trace): when the propagation loop ended at
the fixed point `g1` and the terminal check failed, a call that returns false
leaves exactly `g1` in the caller's grid, every candidate of the branching
cell having been tried with a recursive call that returned false; and a call
that returns true leaves the grid of a recursive call on a clone that returned
true. -/
theorem failed_trials_leave_no_trace (fuel : Nat) (g g1 : Grid)
    (b : Option (Fin 9 × Fin 9)) (hp : propagate 82 g = .fixed g1 b)
    (hc : isSudokuComplete g1 = some false) :
    (∀ g2, solveSudoku (fuel + 1) g = .returned false g2 →
      g2 = g1 ∧ ∃ rm cm : Fin 9, b = some (rm, cm) ∧
        ∀ j : Fin 10, 1 ≤ j.val → (g1.cell rm cm).possible.get j = true →
          ∃ g3, solveSudoku fuel (insertValue g1 j rm cm) = .returned false g3) ∧
    (∀ g2, solveSudoku (fuel + 1) g = .returned true g2 →
      ∃ (rm cm : Fin 9) (m : Fin 10), b = some (rm, cm) ∧ 1 ≤ m.val ∧
        (g1.cell rm cm).possible.get m = true ∧
        solveSudoku fuel (insertValue g1 m rm cm) = .returned true g2) := by
  cases hb : b with
  | none =>
    rw [hb] at hp
    have hrun : solveSudoku (fuel + 1) g = .outOfBounds := by
      rw [solveSudoku_succ, hp]
      simp only
      rw [hc]
    rw [hrun]
    refine ⟨?_, ?_⟩
    · intro g2 h
      cases h
    · intro g2 h
      cases h
  | some q =>
    obtain ⟨rm, cm⟩ := q
    rw [hb] at hp
    have hrun := solveSudoku_stalled fuel hp hc
    have hbr := branch_spec (solveSudoku fuel) g1 rm cm
      (countPossibilities g1 rm cm) 1 (le_refl _) (countCell_eq _).symm
    rw [← hrun] at hbr
    refine ⟨?_, ?_⟩
    · intro g2 h
      rw [h] at hbr
      exact ⟨hbr.1, rm, cm, rfl, hbr.2⟩
    · intro g2 h
      rw [h] at hbr
      obtain ⟨m, h1, h2, h3, _⟩ := hbr
      exact ⟨rm, cm, m, rfl, h1, h2, h3⟩

theorem failed_trials_leave_no_trace_witness :
    propagate 82 (twoInRow 1 0 0 1) = .fixed (twoInRow 1 0 0 1) (some (0, 2)) ∧
    isSudokuComplete (twoInRow 1 0 0 1) = some false ∧
    ∃ g2, solveSudoku 82 (twoInRow 1 0 0 1) = .returned false g2 ∧ g2 = twoInRow 1 0 0 1 :=
  ⟨twoInRow_stalls, twoInRow_check,
   (twoInRow_run 1 (by decide) 0 0 1 (by decide) 82 (le_refl _)).elim fun g2 h2 =>
     ⟨g2, h2,
      ((failed_trials_leave_no_trace 81 (twoInRow 1 0 0 1) (twoInRow 1 0 0 1) (some (0, 2))
        twoInRow_stalls twoInRow_check).1 g2 h2).1⟩⟩

end Sudoku
